import Mathlib

/-!
Gravity2: the physics integrator of `src/main.cpp`

A shallow embedding of `Body`, the `Vector3` operators, `init` and `cycle`.

* Scalars (`float` components of `Vector3`, `double` masses and time steps) live in one
  carrier type `α`.  The definitions use only the operations the program uses
  (`+ - * /`, negation, literals, squaring, and a square-root function handed in as the
  parameter `sqrt`); no algebraic law is assumed by the definitions, so theorems stated
  for an arbitrary `α` hold for every interpretation of the arithmetic.  Theorems that
  need algebra are stated over a field, i.e. for exact arithmetic; rounding and the
  `double`/`float` conversions are not modelled.
* `std::vector<Body>` is a `List`; `v[i].a = sum` is `List.set`, so the acceleration
  loops are embedded as the sequential in-place loops they are.
* The step count of `cycle` is a `double` compared with an `int` counter; it is embedded
  as a rational number.  The step loop is embedded twice.  `cycleFrom` and `cycle` take the
  counter as a mathematical integer, which is the loop for step counts up to `INT_MAX`.
  `cycleIntFrom` and `cycleInt` carry the 32-bit counter, which wraps past `INT_MAX`, and
  count the evaluations of the loop condition; `CycleReturns` says that the call returns.
  For `steps ≤ INT_MAX` the call returns the value of `cycle` (`cycleReturns_cycle`), for
  larger step counts it does not return (`not_cycleReturns`).
* The `int` counters of the loops over the bodies are natural numbers: the embedding covers
  systems of fewer than `2^31` bodies.
* The claims on `Body::r`, `Body::r3` and `Body::mm` that need an order or a true square
  root are stated over the real numbers, with `Real.sqrt` as the parameter `sqrt`.
* Non-finite values are the subject of one claim only; for it the carrier is `Fl K`, exact
  arithmetic with one extra value that a division by zero produces and that every
  operation propagates.
* The tracked-body index of `main` is embedded with the conversion of `int` to 64-bit
  `size_t` made explicit.
-/

set_option linter.unusedSectionVars false

namespace Gravity2

/-- Modelled from the spec: raylib's `Vector3` (declared in `raylib.h`, not part of the
repository), a value with three scalar components. -/
structure Vector3 (α : Type) where
  x : α
  y : α
  z : α
deriving DecidableEq, Repr

/-- Modelled from the spec: raylib's `Color` (declared in `raylib.h`), four 8-bit channels;
a presentation attribute carried but not used by the physics. -/
structure Color where
  r : Nat
  g : Nat
  b : Nat
  a : Nat
deriving DecidableEq, Repr

/-- The record `struct Body` (main.cpp:11-18): `c` is the position, `v` the velocity and `a` the
acceleration. -/
structure Body (α : Type) where
  name : Option String
  mass : α
  radius : α
  c : Vector3 α
  v : Vector3 α
  a : Vector3 α
  color : Color
deriving DecidableEq, Repr

section Defs

variable {α : Type} [Add α] [Sub α] [Mul α] [Div α] [Neg α] [Zero α] [One α]
  [NatCast α] [OfScientific α] [Pow α ℕ]

/-- The constant `constexpr double sol = 25902;` (main.cpp:9). -/
def sol : α := 25902

/-- Modelled from the spec: raymath's `Vector3Add`, component-wise addition
(`operator+`, main.cpp:33). -/
def Vector3Add (a b : Vector3 α) : Vector3 α :=
  ⟨a.x + b.x, a.y + b.y, a.z + b.z⟩

/-- Modelled from the spec: raymath's `Vector3Multiply`, component-wise product
(`operator*` on two vectors, main.cpp:37). -/
def Vector3Multiply (a b : Vector3 α) : Vector3 α :=
  ⟨a.x * b.x, a.y * b.y, a.z * b.z⟩

/-- Modelled from the spec: raymath's `Vector3Scale`, scaling by a scalar
(`operator*` on a vector and a scalar, main.cpp:45). -/
def Vector3Scale (a : Vector3 α) (f : α) : Vector3 α :=
  ⟨a.x * f, a.y * f, a.z * f⟩

/-- Modelled from the spec: raymath's `Vector3Subtract`, component-wise difference
(`operator-` on two vectors, main.cpp:47). -/
def Vector3Subtract (a b : Vector3 α) : Vector3 α :=
  ⟨a.x - b.x, a.y - b.y, a.z - b.z⟩

/-- The operator `operator/(const Vector3 &a, float f)` (main.cpp:41): `Vector3Scale(a, 1.0f / f)`. -/
def Vector3Div (a : Vector3 α) (f : α) : Vector3 α :=
  Vector3Scale a (1 / f)

/-- The operator `operator-(float f, const Vector3 &a)` (main.cpp:51): `Vector3{f, f, f} - a`. -/
def ScalarMinus (f : α) (a : Vector3 α) : Vector3 α :=
  Vector3Subtract ⟨f, f, f⟩ a

/-- The function `Vector3Sqrt` (main.cpp:69): component-wise square root. -/
def Vector3Sqrt (sqrt : α → α) (v : Vector3 α) : Vector3 α :=
  ⟨sqrt v.x, sqrt v.y, sqrt v.z⟩

/-- The method `Body::r` (main.cpp:19): `sqrt` of the sum of the squared coordinate
differences, `pow(x, 2.0)` being the square. -/
def Body.r (sqrt : α → α) (a b : Body α) : α :=
  sqrt ((a.c.x - b.c.x) ^ 2 + (a.c.y - b.c.y) ^ 2 + (a.c.z - b.c.z) ^ 2)

/-- The method `Body::r3` (main.cpp:23): `1 / (rb * rb * rb)` with `rb = r(b)`. -/
def Body.r3 (sqrt : α → α) (a b : Body α) : α :=
  let rb := a.r sqrt b
  1 / (rb * rb * rb)

/-- The method `Body::mm` (main.cpp:27): `mass / sqrt(1 - vel / (sol * sol))` with `vel` the
squared speed. -/
def Body.mm (sqrt : α → α) (b : Body α) : α :=
  let vel := b.v.x * b.v.x + b.v.y * b.v.y + b.v.z * b.v.z
  b.mass / sqrt (1 - vel / (sol * sol))

/-- The vector added to `sum` in the inner loops of `init` (main.cpp:58-59, with `k = -1`)
and of `cycle` (main.cpp:82-83, with `k = -2.975e-3`):
`(v[i].c - v[j].c) * k * v[j].mm() * v[i].r3(v[j])`. -/
def accelTerm (k : α) (sqrt : α → α) (bi bj : Body α) : Vector3 α :=
  Vector3Scale (Vector3Scale (Vector3Scale (Vector3Subtract bi.c bj.c) k) (bj.mm sqrt))
    (bi.r3 sqrt bj)

/-- The inner loop `for (int j = 0; j < v.size(); ++j) if (i != j) sum = sum + ...`
(main.cpp:55-61 and 79-85), reading `v[i]` and `v[j]` from the vector as it is when the
loop runs.  Both indices are below `v.size()`, so the `none` branch is never taken. -/
def accelSum (k : α) (sqrt : α → α) (v : List (Body α)) (i : ℕ) : Vector3 α :=
  (List.range v.length).foldl
    (fun sum j =>
      if i ≠ j then
        match v[i]?, v[j]? with
        | some bi, some bj => Vector3Add sum (accelTerm k sqrt bi bj)
        | _, _ => sum
      else sum)
    ⟨0, 0, 0⟩

/-- The outer loop `for (int i = 0; i < v.size(); ++i) { ...; v[i].a = sum; }`
(main.cpp:54-63 and 78-87): bodies are overwritten in place, one index after the other,
and later iterations read the vector already written to. -/
def accelLoop (k : α) (sqrt : α → α) (v : List (Body α)) : List (Body α) :=
  (List.range v.length).foldl
    (fun w i =>
      match w[i]? with
      | some bi => w.set i { bi with a := accelSum k sqrt w i }
      | none => w)
    v

/-- The loop `for (Body &x : v) x.v = x.v + x.a * 0.5 * dt;` of `init` (main.cpp:64-66). -/
def halfKick (dt : α) (v : List (Body α)) : List (Body α) :=
  v.map fun x => { x with v := Vector3Add x.v (Vector3Scale (Vector3Scale x.a 0.5) dt) }

/-- The function `init` (main.cpp:53-67): the acceleration loop with factor `-1`, then the
half-step velocity loop. -/
def init (sqrt : α → α) (v : List (Body α)) (dt : α) : List (Body α) :=
  halfKick dt (accelLoop (-1) sqrt v)

/-- The position loop of `cycle` (main.cpp:75-77):
`b.c = b.c + (b.v * dt) * Vector3Sqrt(1.0 - (b.v / sol) * (b.v / sol))`. -/
def positionPhase (sqrt : α → α) (dt : α) (v : List (Body α)) : List (Body α) :=
  v.map fun b =>
    { b with
      c := Vector3Add b.c
        (Vector3Multiply (Vector3Scale b.v dt)
          (Vector3Sqrt sqrt
            (ScalarMinus 1 (Vector3Multiply (Vector3Div b.v sol) (Vector3Div b.v sol))))) }

/-- The velocity loop of `cycle` (main.cpp:88-90): `b.v = b.v + b.a * dt`. -/
def velocityPhase (dt : α) (v : List (Body α)) : List (Body α) :=
  v.map fun b => { b with v := Vector3Add b.v (Vector3Scale b.a dt) }

/-- One iteration of the body of the outer loop of `cycle` (main.cpp:75-90). -/
def cycleStep (sqrt : α → α) (dt : α) (v : List (Body α)) : List (Body α) :=
  velocityPhase dt (accelLoop (-2.975e-3) sqrt (positionPhase sqrt dt v))

end Defs

section Cycle

variable {α : Type} [Add α] [Sub α] [Mul α] [Div α] [Neg α] [Zero α] [One α]
  [NatCast α] [OfScientific α] [Pow α ℕ]

/-- The loop `for (int i = 0; i < steps; ++i) { ... }` of `cycle` (main.cpp:74) from
counter value `i` on, the counter compared with the `double` step count and taken as a
mathematical integer: the loop of the source for step counts up to `INT_MAX`, where the
`int` counter does not overflow (`cycleIntFrom` is the loop with the 32-bit counter). -/
def cycleFrom (sqrt : α → α) (dt : α) (steps : ℚ) (i : ℕ) (v : List (Body α)) :
    List (Body α) :=
  if h : (i : ℚ) < steps then cycleFrom sqrt dt steps (i + 1) (cycleStep sqrt dt v) else v
termination_by ⌈steps⌉.toNat - i
decreasing_by
  have h1 : ((i : ℤ) : ℚ) < ((⌈steps⌉ : ℤ) : ℚ) :=
    lt_of_lt_of_le (by exact_mod_cast h) (Int.le_ceil steps)
  have h2 : (i : ℤ) < ⌈steps⌉ := by exact_mod_cast h1
  omega

/-- The function `cycle` (main.cpp:73-92): the step loop started with counter `0`, the
counter taken as a mathematical integer (see `cycleFrom`). -/
def cycle (sqrt : α → α) (v : List (Body α)) (dt : α) (steps : ℚ) : List (Body α) :=
  cycleFrom sqrt dt steps 0 v

end Cycle

section Vocabulary

variable {α : Type}

/-- Every field of a body except the acceleration. -/
def Body.sansA (b : Body α) : Option String × α × α × Vector3 α × Vector3 α × Color :=
  (b.name, b.mass, b.radius, b.c, b.v, b.color)

/-- The fields the integrator never writes: name, mass, radius and colour. -/
def Body.fixed (b : Body α) : Option String × α × α × Color :=
  (b.name, b.mass, b.radius, b.color)

/-- The first two bodies `main` seeds (main.cpp:100-103), over the rationals. -/
def sunQ : Body ℚ :=
  ⟨some "Sun", 332837, 1.3, ⟨0, 0, 0⟩, ⟨0, 0, 0⟩, ⟨0, 0, 0⟩, ⟨255, 255, 255, 255⟩⟩

/-- The second body `main` seeds (main.cpp:102-103), over the rationals. -/
def earthQ : Body ℚ :=
  ⟨some "Earth", 1, 0.012, ⟨0, 150, 0⟩, ⟨2.568, 0, 0⟩, ⟨0, 0, 0⟩, ⟨0, 121, 241, 255⟩⟩

/-- The body `earthQ` with another value stored in its acceleration field. -/
def earthQ2 : Body ℚ :=
  { earthQ with a := ⟨7, -3, 1⟩ }

/-- A probe at distance 5 from the Sun, moving along the x axis at three fifths of
`sol`. -/
def probeQ : Body ℚ :=
  ⟨some "Probe", 2, 0.001, ⟨3, 4, 0⟩, ⟨15541.2, 0, 0⟩, ⟨0, 0, 0⟩, ⟨255, 255, 255, 255⟩⟩

end Vocabulary

/-! ## The tracked-body index of `main` -/

section TrackedIndex

/-- The conversion of an `int` to `size_t` (64 bits, unsigned): the value modulo `2^64`,
so `-1` becomes `2^64 - 1`. -/
def toSizeT (x : ℤ) : ℕ :=
  (x % 2 ^ 64).toNat

/-- The LEFT key (main.cpp:149): `body_number = (body_number - 1) % bodies.size();`.  The
subtraction is done on `int`, the remainder on `size_t`.  The remainder is below the size;
for the lists this embedding covers (fewer than `2^31` bodies) it fits the `int` it is
stored into, so the stored value is the remainder itself. -/
def keyLeft (body_number : ℤ) (size : ℕ) : ℤ :=
  ((toSizeT (body_number - 1) % size : ℕ) : ℤ)

/-- The RIGHT key (main.cpp:152): `body_number = (body_number + 1) % bodies.size();`. -/
def keyRight (body_number : ℤ) (size : ℕ) : ℤ :=
  ((toSizeT (body_number + 1) % size : ℕ) : ℤ)

end TrackedIndex

/-! ## Vocabulary for the claims on the force-law primitives -/

section Primitives

variable {α : Type} [Add α] [Mul α]

/-- The local `vel` of `Body::mm` (main.cpp:28): the squared speed
`v.x * v.x + v.y * v.y + v.z * v.z`. -/
def Body.speedSq (b : Body α) : α :=
  b.v.x * b.v.x + b.v.y * b.v.y + b.v.z * b.v.z

/-- A body of mass `m` at position `(x, y, z)` with velocity `(vx, 0, 0)`. -/
def bodyAt (m x y z vx : α) [Zero α] : Body α :=
  ⟨none, m, m, ⟨x, y, z⟩, ⟨vx, 0, 0⟩, ⟨0, 0, 0⟩, ⟨255, 255, 255, 255⟩⟩

end Primitives

/-! ## Vocabulary for the claim on read/write hazards -/

section Hazards

variable {α : Type} [Add α] [Sub α] [Mul α] [Div α] [Neg α] [Zero α] [One α]
  [NatCast α] [OfScientific α] [Pow α ℕ]

/-- The body of the outer acceleration loop (main.cpp:55-62 and 79-86), run for the
indices of `order` one after the other, in place; `accelLoop` is the run along
`0, 1, ..., v.size() - 1`. -/
def accelLoopIn (k : α) (sqrt : α → α) (order : List ℕ) (v : List (Body α)) :
    List (Body α) :=
  order.foldl
    (fun w i =>
      match w[i]? with
      | some bi => w.set i { bi with a := accelSum k sqrt w i }
      | none => w)
    v

/-- The pass of the specification (spec §5): every body gets the acceleration computed from
an immutable snapshot `v` of the state taken before the pass, each body independently of
the others. -/
def accelSnapshot (k : α) (sqrt : α → α) (v : List (Body α)) : List (Body α) :=
  v.mapIdx fun i b => { b with a := accelSum k sqrt v i }

end Hazards

/-! ## Arithmetic with non-finite values

Exact arithmetic extended by one value for "not a finite number" (an infinity or NaN):
a division by zero gives it, and every operation with it as an argument gives it again.
Rounding and overflow are not modelled. -/

section NonFinite

/-- A scalar of the program: a finite number or a non-finite value (an infinity or NaN). -/
inductive Fl (K : Type) where
  | fin (x : K) : Fl K
  | nonfin : Fl K
deriving DecidableEq, Repr

variable {K : Type} [Field K] [DecidableEq K]

/-- A binary operation on finite numbers, extended: the result is non-finite as soon as an
argument is. -/
def Fl.lift2 (f : K → K → K) : Fl K → Fl K → Fl K
  | .fin a, .fin b => .fin (f a b)
  | _, _ => .nonfin

/-- Division: dividing by zero (`x / 0`, also `0 / 0`) gives a non-finite value. -/
def Fl.divide : Fl K → Fl K → Fl K
  | .fin a, .fin b => if b = 0 then .nonfin else .fin (a / b)
  | _, _ => .nonfin

/-- Negation. -/
def Fl.negate : Fl K → Fl K
  | .fin a => .fin (-a)
  | .nonfin => .nonfin

/-- Power with a natural exponent, as used for `pow(x, 2.0)`. -/
def Fl.power : Fl K → ℕ → Fl K
  | .fin a, n => .fin (a ^ n)
  | .nonfin, _ => .nonfin

/-- Whether a scalar is a finite number. -/
def Fl.isFinite : Fl K → Bool
  | .fin _ => true
  | .nonfin => false

instance : Add (Fl K) := ⟨Fl.lift2 (· + ·)⟩

instance : Sub (Fl K) := ⟨Fl.lift2 (· - ·)⟩

instance : Mul (Fl K) := ⟨Fl.lift2 (· * ·)⟩

instance : Div (Fl K) := ⟨Fl.divide⟩

instance : Neg (Fl K) := ⟨Fl.negate⟩

instance : Zero (Fl K) := ⟨.fin 0⟩

instance : One (Fl K) := ⟨.fin 1⟩

instance : NatCast (Fl K) := ⟨fun n => .fin n⟩

instance : OfScientific (Fl K) := ⟨fun m s e => .fin (OfScientific.ofScientific m s e)⟩

instance : Pow (Fl K) ℕ := ⟨Fl.power⟩

/-- Whether all three components of a vector are finite. -/
def Vector3.isFinite (v : Vector3 (Fl K)) : Bool :=
  v.x.isFinite && v.y.isFinite && v.z.isFinite

/-- A square root on the rationals with non-finite values: non-finite on negative numbers
and on the non-finite value, `Rat.sqrt` otherwise (the exact root on squares of rationals). -/
def sqrtQ : Fl ℚ → Fl ℚ
  | .fin q => if 0 ≤ q then .fin (Rat.sqrt q) else .nonfin
  | .nonfin => .nonfin

/-- A body of mass `1` at `(0, 150, 0)` moving along the x axis at three fifths of `sol`. -/
def twinA : Body (Fl ℚ) :=
  ⟨some "A", .fin 1, .fin 1, ⟨.fin 0, .fin 150, .fin 0⟩, ⟨.fin 15541.2, .fin 0, .fin 0⟩,
    ⟨.fin 0, .fin 0, .fin 0⟩, ⟨255, 255, 255, 255⟩⟩

/-- A body of mass `2` at the same position as `twinA`, with the same velocity. -/
def twinB : Body (Fl ℚ) :=
  ⟨some "B", .fin 2, .fin 1, ⟨.fin 0, .fin 150, .fin 0⟩, ⟨.fin 15541.2, .fin 0, .fin 0⟩,
    ⟨.fin 0, .fin 0, .fin 0⟩, ⟨255, 255, 255, 255⟩⟩

end NonFinite

/-! ## The step loop of `cycle` with its 32-bit counter -/

section IntCounter

variable {α : Type} [Add α] [Sub α] [Mul α] [Div α] [Neg α] [Zero α] [One α]
  [NatCast α] [OfScientific α] [Pow α ℕ]

/-- The increment `++i` of the 32-bit `int` counter (main.cpp:74): past
`INT_MAX = 2147483647` the value wraps to `INT_MIN = -2147483648` (two's complement; the
C++ standard leaves this overflow undefined). -/
def intIncr (i : ℤ) : ℤ :=
  (i + 1 + 2147483648) % 4294967296 - 2147483648

/-- The loop `for (int i = 0; i < steps; ++i) { ... }` of `cycle` (main.cpp:74-91) with the
`int` counter at value `i`, run for at most `fuel` evaluations of the loop condition:
`some` result when the loop has ended within that bound, `none` when it has not. -/
def cycleIntFrom (sqrt : α → α) (dt : α) (steps : ℚ) :
    ℕ → ℤ → List (Body α) → Option (List (Body α))
  | 0, _, _ => none
  | fuel + 1, i, v =>
    if (i : ℚ) < steps then cycleIntFrom sqrt dt steps fuel (intIncr i) (cycleStep sqrt dt v)
    else some v

/-- The call `cycle(v, dt, steps)` (main.cpp:73-92) with the `int` counter started at `0`,
run for at most `fuel` evaluations of the loop condition. -/
def cycleInt (sqrt : α → α) (v : List (Body α)) (dt : α) (steps : ℚ) (fuel : ℕ) :
    Option (List (Body α)) :=
  cycleIntFrom sqrt dt steps fuel 0 v

/-- The call `cycle(v, dt, steps)` returns, and leaves the system `r`: from some bound on,
every bound on the number of evaluations of the loop condition gives the result `r`. -/
def CycleReturns (sqrt : α → α) (v : List (Body α)) (dt : α) (steps : ℚ)
    (r : List (Body α)) : Prop :=
  ∃ fuel, ∀ f, fuel ≤ f → cycleInt sqrt v dt steps f = some r

end IntCounter

/-! ## Vocabulary for the corrected claims on the force law -/

section ForceLawVocabulary

/-- The comparison `==` of two scalars of the program: two finite numbers compare equal
when they are the same number; the non-finite value stands for a NaN, which compares
unequal to everything, itself included. -/
def Fl.numEq {K : Type} [DecidableEq K] : Fl K → Fl K → Bool
  | .fin a, .fin b => decide (a = b)
  | _, _ => false

/-- A body of mass `1` at `(3, 4, 0)` moving along the x axis at the speed `sol`. -/
def swiftQ : Body (Fl ℚ) :=
  ⟨some "S", .fin 1, .fin 1, ⟨.fin 3, .fin 4, .fin 0⟩, ⟨.fin 25902, .fin 0, .fin 0⟩,
    ⟨.fin 0, .fin 0, .fin 0⟩, ⟨255, 255, 255, 255⟩⟩

end ForceLawVocabulary

/-! ## Lemmas on the acceleration loops (no law of arithmetic is used) -/

section LoopLemmas

variable {α : Type} [Add α] [Sub α] [Mul α] [Div α] [Neg α] [Zero α] [One α]
  [NatCast α] [OfScientific α] [Pow α ℕ]

theorem accelTerm_congr (k : α) (sqrt : α → α) {bi bj ci cj : Body α}
    (hi : bi.sansA = ci.sansA) (hj : bj.sansA = cj.sansA) :
    accelTerm k sqrt bi bj = accelTerm k sqrt ci cj := by
  simp only [Body.sansA, Prod.mk.injEq] at hi hj
  obtain ⟨-, -, -, hic, -, -⟩ := hi
  obtain ⟨-, hjm, -, hjc, hjv, -⟩ := hj
  simp only [accelTerm, Body.r3, Body.r, Body.mm, hic, hjm, hjc, hjv]

theorem accelSum_congr (k : α) (sqrt : α → α) {v w : List (Body α)}
    (hlen : v.length = w.length)
    (h : ∀ j : ℕ, (v[j]?).map Body.sansA = (w[j]?).map Body.sansA) (i : ℕ) :
    accelSum k sqrt v i = accelSum k sqrt w i := by
  unfold accelSum
  rw [hlen]
  congr 1
  funext sum j
  by_cases hij : i = j
  · simp [hij]
  · simp only [ne_eq, hij, not_false_eq_true, if_true]
    have hi := h i
    have hj := h j
    cases hvi : v[i]? <;> cases hwi : w[i]? <;> simp only [hvi, hwi, Option.map_none',
      Option.map_some', reduceCtorEq, Option.some.injEq] at hi
    · rfl
    · cases hvj : v[j]? <;> cases hwj : w[j]? <;> simp only [hvj, hwj, Option.map_none',
        Option.map_some', reduceCtorEq, Option.some.injEq] at hj
      · rfl
      · simp only [accelTerm_congr k sqrt hi hj]

/-- The state of the outer loop of `accelLoop` after `m` iterations: the first `m` bodies
carry the acceleration computed from the vector as it was on entry, the others are
untouched. -/
theorem accelLoop_upto (k : α) (sqrt : α → α) (v : List (Body α)) :
    ∀ m, m ≤ v.length →
      ((List.range m).foldl
          (fun w i =>
            match w[i]? with
            | some bi => w.set i { bi with a := accelSum k sqrt w i }
            | none => w) v).length = v.length ∧
      ∀ j, ((List.range m).foldl
          (fun w i =>
            match w[i]? with
            | some bi => w.set i { bi with a := accelSum k sqrt w i }
            | none => w) v)[j]? =
        if j < m then (v[j]?).map (fun b => { b with a := accelSum k sqrt v j })
        else v[j]? := by
  intro m
  induction m with
  | zero => intro _; simp
  | succ m ih =>
    intro hm
    obtain ⟨hlen, hget⟩ := ih (Nat.le_of_succ_le hm)
    rw [List.range_succ, List.foldl_append, List.foldl_cons, List.foldl_nil]
    generalize (List.range m).foldl
          (fun w i =>
            match w[i]? with
            | some bi => w.set i { bi with a := accelSum k sqrt w i }
            | none => w) v = W at hlen hget
    have hmv : m < v.length := hm
    have hWm : W[m]? = some (v[m]) := by
      rw [hget m, if_neg (Nat.lt_irrefl m), List.getElem?_eq_getElem hmv]
    have hsum : accelSum k sqrt W m = accelSum k sqrt v m := by
      apply accelSum_congr k sqrt hlen
      intro j
      rw [hget j]
      split
      · cases v[j]? <;> simp [Body.sansA]
      · rfl
    simp only [hWm, hsum]
    refine ⟨by simp [hlen], fun j => ?_⟩
    rw [List.getElem?_set, hget j]
    by_cases hjm : m = j
    · subst hjm
      simp [hlen, hmv]
    · have h1 : (j < m + 1) = (j < m) := by
        apply propext
        omega
      simp only [hjm, if_false, h1]

theorem getElem?_accelLoop (k : α) (sqrt : α → α) (v : List (Body α)) (j : ℕ) :
    (accelLoop k sqrt v)[j]? =
      (v[j]?).map (fun b => { b with a := accelSum k sqrt v j }) := by
  unfold accelLoop
  rw [(accelLoop_upto k sqrt v v.length (Nat.le_refl _)).2 j]
  split
  · rfl
  · rename_i h
    rw [List.getElem?_eq_none (Nat.le_of_not_lt h)]
    rfl

theorem length_accelLoop (k : α) (sqrt : α → α) (v : List (Body α)) :
    (accelLoop k sqrt v).length = v.length :=
  (accelLoop_upto k sqrt v v.length (Nat.le_refl _)).1

/-- The in-place loop computes what a pass over a snapshot of the vector computes. -/
theorem accelLoop_eq_mapIdx (k : α) (sqrt : α → α) (v : List (Body α)) :
    accelLoop k sqrt v = v.mapIdx (fun j b => { b with a := accelSum k sqrt v j }) := by
  apply List.ext_getElem?
  intro j
  rw [getElem?_accelLoop, List.getElem?_mapIdx]

/-- Bodies of `init`'s result, index by index. -/
theorem getElem?_init (sqrt : α → α) (v : List (Body α)) (dt : α) (j : ℕ) :
    (init sqrt v dt)[j]? =
      (v[j]?).map (fun b =>
        { b with
          a := accelSum (-1) sqrt v j
          v := Vector3Add b.v (Vector3Scale (Vector3Scale (accelSum (-1) sqrt v j) 0.5) dt) }) := by
  unfold init halfKick
  rw [List.getElem?_map, getElem?_accelLoop]
  cases v[j]? <;> rfl

theorem length_positionPhase (sqrt : α → α) (dt : α) (v : List (Body α)) :
    (positionPhase sqrt dt v).length = v.length := by
  simp [positionPhase]

/-- Bodies of the result of one iteration of `cycle`, index by index. -/
theorem getElem?_cycleStep (sqrt : α → α) (dt : α) (v : List (Body α)) (j : ℕ) :
    (cycleStep sqrt dt v)[j]? =
      ((positionPhase sqrt dt v)[j]?).map (fun b =>
        { b with
          a := accelSum (-2.975e-3) sqrt (positionPhase sqrt dt v) j
          v := Vector3Add b.v
            (Vector3Scale (accelSum (-2.975e-3) sqrt (positionPhase sqrt dt v) j) dt) }) := by
  unfold cycleStep velocityPhase
  rw [List.getElem?_map, getElem?_accelLoop]
  cases (positionPhase sqrt dt v)[j]? <;> rfl

theorem length_cycleStep (sqrt : α → α) (dt : α) (v : List (Body α)) :
    (cycleStep sqrt dt v).length = v.length := by
  simp [cycleStep, velocityPhase, length_accelLoop, positionPhase]

/-- The acceleration loop changes no field other than the acceleration. -/
theorem map_accelLoop {β : Type} (p : Body α → β)
    (hp : ∀ (b : Body α) (A : Vector3 α), p { b with a := A } = p b)
    (k : α) (sqrt : α → α) (v : List (Body α)) :
    (accelLoop k sqrt v).map p = v.map p := by
  apply List.ext_getElem?
  intro j
  rw [List.getElem?_map, List.getElem?_map, getElem?_accelLoop]
  cases v[j]? <;> simp [hp]

theorem map_fixed_cycleStep (sqrt : α → α) (dt : α) (v : List (Body α)) :
    (cycleStep sqrt dt v).map Body.fixed = v.map Body.fixed := by
  unfold cycleStep velocityPhase
  rw [List.map_map]
  have h1 : (Body.fixed ∘ fun b : Body α =>
      { b with v := Vector3Add b.v (Vector3Scale b.a dt) }) = Body.fixed := by
    funext b
    rfl
  rw [h1, map_accelLoop Body.fixed (fun _ _ => rfl), positionPhase, List.map_map]
  congr 1

theorem map_fixed_iterate (sqrt : α → α) (dt : α) (n : ℕ) (v : List (Body α)) :
    ((cycleStep sqrt dt)^[n] v).map Body.fixed = v.map Body.fixed := by
  induction n generalizing v with
  | zero => rfl
  | succ n ih => rw [Function.iterate_succ_apply, ih, map_fixed_cycleStep]

/-- A per-body update that does not read the acceleration respects "equal up to the
acceleration fields". -/
theorem map_sansA_map_congr (f : Body α → Body α)
    (hf : ∀ b c : Body α, b.sansA = c.sansA → (f b).sansA = (f c).sansA) :
    ∀ v w : List (Body α), v.map Body.sansA = w.map Body.sansA →
      (v.map f).map Body.sansA = (w.map f).map Body.sansA := by
  intro v
  induction v with
  | nil =>
    intro w h
    cases w with
    | nil => rfl
    | cons c w => simp at h
  | cons b v ih =>
    intro w h
    cases w with
    | nil => simp at h
    | cons c w =>
      simp only [List.map_cons, List.cons.injEq] at h ⊢
      exact ⟨hf b c h.1, ih w h.2⟩

theorem accelLoop_congr (k : α) (sqrt : α → α) {v w : List (Body α)}
    (h : v.map Body.sansA = w.map Body.sansA) :
    accelLoop k sqrt v = accelLoop k sqrt w := by
  have hlen : v.length = w.length := by
    have := congrArg List.length h
    simpa using this
  have hget : ∀ j : ℕ, (v[j]?).map Body.sansA = (w[j]?).map Body.sansA := by
    intro j
    have := congrArg (fun l => l[j]?) h
    simpa using this
  apply List.ext_getElem?
  intro j
  rw [getElem?_accelLoop, getElem?_accelLoop, accelSum_congr k sqrt hlen hget j]
  have hj := hget j
  cases hv : v[j]? <;> cases hw : w[j]? <;> simp only [hv, hw, Option.map_none',
    Option.map_some', reduceCtorEq, Option.some.injEq] at hj ⊢
  simp only [Body.sansA, Prod.mk.injEq] at hj
  obtain ⟨h1, h2, h3, h4, h5, h6⟩ := hj
  simp [h1, h2, h3, h4, h5, h6]

theorem cycleStep_congr (sqrt : α → α) (dt : α) {v w : List (Body α)}
    (h : v.map Body.sansA = w.map Body.sansA) :
    cycleStep sqrt dt v = cycleStep sqrt dt w := by
  unfold cycleStep
  rw [accelLoop_congr]
  unfold positionPhase
  apply map_sansA_map_congr _ _ v w h
  intro b c hbc
  simp only [Body.sansA, Prod.mk.injEq] at hbc ⊢
  obtain ⟨h1, h2, h3, h4, h5, h6⟩ := hbc
  simp [h1, h2, h3, h4, h5, h6]

end LoopLemmas

/-! ## Lemmas on the step loop of `cycle` -/

section CycleLemmas

variable {α : Type} [Add α] [Sub α] [Mul α] [Div α] [Neg α] [Zero α] [One α]
  [NatCast α] [OfScientific α] [Pow α ℕ]

theorem cycleFrom_eq_iterate (sqrt : α → α) (dt : α) (steps : ℚ) :
    ∀ (d i : ℕ) (v : List (Body α)), ⌈steps⌉.toNat - i = d →
      cycleFrom sqrt dt steps i v = (cycleStep sqrt dt)^[d] v := by
  intro d
  induction d with
  | zero =>
    intro i v hd
    have hn : ¬ ((i : ℚ) < steps) := by
      intro h
      have h2 : (i : ℤ) < ⌈steps⌉ := Int.lt_ceil.mpr (by exact_mod_cast h)
      omega
    rw [cycleFrom, dif_neg hn]
    rfl
  | succ d ih =>
    intro i v hd
    have h2 : (i : ℤ) < ⌈steps⌉ := by omega
    have h : (i : ℚ) < steps := by exact_mod_cast Int.lt_ceil.mp h2
    rw [cycleFrom, dif_pos h, ih (i + 1) _ (by omega), Function.iterate_succ_apply]

/-- The loop of `cycle` terminates after `⌈steps⌉` iterations (none when `steps ≤ 0`). -/
theorem cycle_eq_iterate (sqrt : α → α) (v : List (Body α)) (dt : α) (steps : ℚ) :
    cycle sqrt v dt steps = (cycleStep sqrt dt)^[⌈steps⌉.toNat] v :=
  cycleFrom_eq_iterate sqrt dt steps _ 0 v rfl

theorem cycle_natCast (sqrt : α → α) (v : List (Body α)) (dt : α) (n : ℕ) :
    cycle sqrt v dt (n : ℚ) = (cycleStep sqrt dt)^[n] v := by
  rw [cycle_eq_iterate, Int.ceil_natCast, Int.toNat_natCast]

theorem cycle_one (sqrt : α → α) (v : List (Body α)) (dt : α) :
    cycle sqrt v dt 1 = cycleStep sqrt dt v := by
  have h := cycle_natCast sqrt v dt 1
  simpa using h

end CycleLemmas

/-! ## Exact arithmetic: the scalars form a field -/

section FieldLemmas

variable {K : Type} [Field K]

theorem Body.r_comm (sqrt : K → K) (a b : Body K) : a.r sqrt b = b.r sqrt a := by
  unfold Body.r
  congr 1
  ring

theorem Body.r3_comm (sqrt : K → K) (a b : Body K) : a.r3 sqrt b = b.r3 sqrt a := by
  unfold Body.r3
  rw [Body.r_comm sqrt a b]

/-- The inner loop, run over the first `m` indices, has added up the terms of the indices
other than `i`. -/
theorem accelSum_upto (k : K) (sqrt : K → K) (v : List (Body K)) (i : Fin v.length) :
    ∀ m, m ≤ v.length →
      (List.range m).foldl
        (fun sum j =>
          if i.val ≠ j then
            match v[i.val]?, v[j]? with
            | some bi, some bj => Vector3Add sum (accelTerm k sqrt bi bj)
            | _, _ => sum
          else sum)
        (⟨0, 0, 0⟩ : Vector3 K) =
      ⟨∑ j ∈ Finset.range m, if i.val ≠ j then
          (v[j]?.elim 0 fun bj => (accelTerm k sqrt (v.get i) bj).x) else 0,
        ∑ j ∈ Finset.range m, if i.val ≠ j then
          (v[j]?.elim 0 fun bj => (accelTerm k sqrt (v.get i) bj).y) else 0,
        ∑ j ∈ Finset.range m, if i.val ≠ j then
          (v[j]?.elim 0 fun bj => (accelTerm k sqrt (v.get i) bj).z) else 0⟩ := by
  intro m
  induction m with
  | zero => intro _; simp
  | succ m ih =>
    intro hm
    have hmv : m < v.length := hm
    rw [List.range_succ, List.foldl_append, ih (Nat.le_of_succ_le hm)]
    simp only [List.foldl_cons, List.foldl_nil, Finset.sum_range_succ]
    rw [List.getElem?_eq_getElem i.isLt, List.getElem?_eq_getElem hmv]
    by_cases him : i.val = m
    · simp [him]
    · simp only [ne_eq, him, not_false_eq_true, if_true, Vector3Add, Option.elim]
      rfl

/-- Over a field the inner loop computes, on each axis, the sum of the terms of all
indices other than `i`. -/
theorem accelSum_eq_sum (k : K) (sqrt : K → K) (v : List (Body K)) (i : Fin v.length) :
    accelSum k sqrt v i.val =
      ⟨∑ j ∈ Finset.univ.erase i, (accelTerm k sqrt (v.get i) (v.get j)).x,
        ∑ j ∈ Finset.univ.erase i, (accelTerm k sqrt (v.get i) (v.get j)).y,
        ∑ j ∈ Finset.univ.erase i, (accelTerm k sqrt (v.get i) (v.get j)).z⟩ := by
  have key : ∀ f : Body K → K,
      (∑ j ∈ Finset.range v.length,
        if i.val ≠ j then (v[j]?.elim 0 fun bj => f bj) else 0) =
      ∑ j ∈ Finset.univ.erase i, f (v.get j) := by
    intro f
    rw [Finset.sum_range fun j => if i.val ≠ j then (v[j]?.elim 0 fun bj => f bj) else 0]
    rw [← Finset.sum_erase Finset.univ (a := i) (by simp)]
    apply Finset.sum_congr rfl
    intro j hj
    have hne : i.val ≠ j.val := fun h => (Finset.ne_of_mem_erase hj) (Fin.ext h.symm)
    rw [if_pos hne, List.getElem?_eq_getElem j.isLt]
    rfl
  unfold accelSum
  rw [accelSum_upto k sqrt v i v.length (Nat.le_refl _)]
  rw [key fun bj => (accelTerm k sqrt (v.get i) bj).x,
    key fun bj => (accelTerm k sqrt (v.get i) bj).y,
    key fun bj => (accelTerm k sqrt (v.get i) bj).z]

/-- The Sun is at rest: its relativistic mass is its rest mass. -/
theorem mm_sunQ : sunQ.mm Rat.sqrt = 332837 := by
  norm_num [Body.mm, sunQ]

/-- At three fifths of `sol` the relativistic mass is five fourths of the rest mass. -/
theorem mm_probeQ : probeQ.mm Rat.sqrt = 5 / 2 := by
  have h : (1 - (15541.2 * 15541.2 + 0 * 0 + 0 * 0) / (sol * sol) : ℚ) = (4 / 5) * (4 / 5) := by
    norm_num [sol]
  simp only [Body.mm, probeQ, h, Rat.sqrt_eq]
  norm_num [abs_of_pos]

end FieldLemmas

/-! ## The claims -/

section Claims

variable {α : Type} [Add α] [Sub α] [Mul α] [Div α] [Neg α] [Zero α] [One α]
  [NatCast α] [OfScientific α] [Pow α ℕ]

/-- C1 (zero-step no-op): for every system, also the empty one, and every `dt`,
`cycle(system, dt, 0)` returns the system unchanged, so every field of every body keeps
its value.  No law of arithmetic is used. -/
theorem C1_cycle_zero_steps (sqrt : α → α) (v : List (Body α)) (dt : α) :
    cycle sqrt v dt 0 = v := by
  have h := cycle_natCast sqrt v dt 0
  simpa using h

/-- C2 (half-step contract): after `init(system, dt)` body `i` holds an acceleration `A_i`,
its velocity is the velocity before the call plus `A_i * 0.5 * dt` (the vector scaled by
`0.5`, then by `dt`, as the source does), and its position is the one before the call.
No law of arithmetic is used. -/
theorem C2_init_half_step (sqrt : α → α) (v : List (Body α)) (dt : α) (i : Fin v.length) :
    ∃ b, (init sqrt v dt)[i.val]? = some b ∧
      b.v = Vector3Add (v.get i).v (Vector3Scale (Vector3Scale b.a 0.5) dt) ∧
      b.c = (v.get i).c := by
  have h := getElem?_init sqrt v dt i.val
  rw [List.getElem?_eq_getElem i.isLt] at h
  exact ⟨_, h, rfl, rfl⟩

/-- C6 (full-step velocity update): after `cycle(system, dt, 1)` the velocity of body `i`
is its velocity before the call plus the acceleration stored in that body at the end of
the call, scaled by `dt` (a full step).  No law of arithmetic is used. -/
theorem C6_cycle_full_step_velocity (sqrt : α → α) (v : List (Body α)) (dt : α)
    (i : Fin v.length) :
    ∃ b, (cycle sqrt v dt 1)[i.val]? = some b ∧
      b.v = Vector3Add (v.get i).v (Vector3Scale b.a dt) := by
  have h := getElem?_cycleStep sqrt dt v i.val
  rw [positionPhase, List.getElem?_map, List.getElem?_eq_getElem i.isLt, ← positionPhase,
    ← cycle_one] at h
  exact ⟨_, h, rfl⟩

/-- C9 (immutable fields and fixed length): `init` and `cycle`, for every step count,
return as many bodies as they were given, in the same order, each with the name, mass,
radius and colour it had; `init` also leaves every position as it was.  No law of
arithmetic is used. -/
theorem C9_fixed_fields_and_length (sqrt : α → α) (v : List (Body α)) (dt : α) :
    ((init sqrt v dt).length = v.length ∧
      (init sqrt v dt).map Body.fixed = v.map Body.fixed ∧
      (init sqrt v dt).map Body.c = v.map Body.c) ∧
    ∀ steps : ℚ, (cycle sqrt v dt steps).length = v.length ∧
      (cycle sqrt v dt steps).map Body.fixed = v.map Body.fixed := by
  have hinit : ∀ {β : Type} (p : Body α → β),
      (∀ (b : Body α) (A : Vector3 α), p { b with a := A } = p b) →
      (∀ (b : Body α) (V : Vector3 α), p { b with v := V } = p b) →
      (init sqrt v dt).map p = v.map p := by
    intro β p hpa hpv
    unfold init halfKick
    rw [List.map_map]
    have h1 : (p ∘ fun x : Body α =>
        { x with v := Vector3Add x.v (Vector3Scale (Vector3Scale x.a 0.5) dt) }) = p := by
      funext b
      exact hpv b _
    rw [h1, map_accelLoop p hpa]
  refine ⟨⟨?_, hinit Body.fixed (fun _ _ => rfl) (fun _ _ => rfl),
    hinit Body.c (fun _ _ => rfl) (fun _ _ => rfl)⟩, fun steps => ?_⟩
  · have := congrArg List.length (hinit Body.c (fun _ _ => rfl) (fun _ _ => rfl))
    simpa using this
  · have h : (cycle sqrt v dt steps).map Body.fixed = v.map Body.fixed := by
      rw [cycle_eq_iterate, map_fixed_iterate]
    refine ⟨?_, h⟩
    have := congrArg List.length h
    simpa using this

/-- C10 (acceleration is a derived quantity): two systems that differ only in the
acceleration fields of their bodies give the same result under `init`, and the same result
under `cycle` for every positive step count (in particular every `steps ≥ 1`): the
acceleration stored on entry is never read.  No law of arithmetic is used. -/
theorem C10_acceleration_is_derived (sqrt : α → α) (v w : List (Body α)) (dt : α)
    (steps : ℚ) (h : v.map Body.sansA = w.map Body.sansA) (hs : 0 < steps) :
    init sqrt v dt = init sqrt w dt ∧ cycle sqrt v dt steps = cycle sqrt w dt steps := by
  constructor
  · unfold init
    rw [accelLoop_congr (-1) sqrt h]
  · have hpos : 0 < ⌈steps⌉ := Int.ceil_pos.mpr hs
    obtain ⟨d, hd⟩ : ∃ d : ℕ, ⌈steps⌉.toNat = d + 1 := ⟨⌈steps⌉.toNat - 1, by omega⟩
    rw [cycle_eq_iterate, cycle_eq_iterate, hd, Function.iterate_succ_apply,
      Function.iterate_succ_apply, cycleStep_congr sqrt dt h]

/-- Witness for C10: the Sun with the Earth, and with the Earth carrying another stored
acceleration, one step of `0.001`. -/
theorem C10_acceleration_is_derived_witness :
    [sunQ, earthQ].map Body.sansA = [sunQ, earthQ2].map Body.sansA ∧ (0 : ℚ) < 1 ∧
    init Rat.sqrt [sunQ, earthQ] 0.001 = init Rat.sqrt [sunQ, earthQ2] 0.001 ∧
    cycle Rat.sqrt [sunQ, earthQ] 0.001 1 = cycle Rat.sqrt [sunQ, earthQ2] 0.001 1 :=
  ⟨rfl, by norm_num,
    C10_acceleration_is_derived Rat.sqrt [sunQ, earthQ] [sunQ, earthQ2] 0.001 1 rfl
      (by norm_num)⟩

end Claims

section FieldClaims

variable {K : Type} [Field K]

/-- C4 (per-axis position update), in exact arithmetic: after `cycle(system, dt, 1)` the
position of body `i` on each axis is the old position plus
`old velocity * dt * sqrt(1 - (old velocity / c)^2)` with `c = 25902`, the factor of an
axis being computed from the velocity component of that axis alone.  The identity holds
for every velocity, in particular when every component satisfies `|v| ≤ c`. -/
theorem C4_cycle_position_update (sqrt : K → K) (v : List (Body K)) (dt : K)
    (i : Fin v.length) :
    ∃ b, (cycle sqrt v dt 1)[i.val]? = some b ∧
      b.c.x = (v.get i).c.x + (v.get i).v.x * dt * sqrt (1 - ((v.get i).v.x / 25902) ^ 2) ∧
      b.c.y = (v.get i).c.y + (v.get i).v.y * dt * sqrt (1 - ((v.get i).v.y / 25902) ^ 2) ∧
      b.c.z = (v.get i).c.z + (v.get i).v.z * dt * sqrt (1 - ((v.get i).v.z / 25902) ^ 2) := by
  have h := getElem?_cycleStep sqrt dt v i.val
  rw [positionPhase, List.getElem?_map, List.getElem?_eq_getElem i.isLt, ← positionPhase,
    ← cycle_one] at h
  have e : ∀ a : K, a * (1 / sol) * (a * (1 / sol)) = (a / 25902) ^ 2 := by
    intro a
    unfold sol
    ring
  refine ⟨_, h, ?_, ?_, ?_⟩ <;>
    simp only [Option.map_some', Vector3Add, Vector3Multiply, Vector3Scale, Vector3Sqrt,
      ScalarMinus, Vector3Subtract, Vector3Div, e] <;> rfl

end FieldClaims

section TrackedIndexClaims

theorem toSizeT_neg_one : toSizeT (-1) = 2 ^ 64 - 1 := by
  decide

/-- C19 (the tracked-body index never leaves the list): for a non-empty list of `size`
bodies and every index `b`, in particular every `b` with `0 ≤ b < size`, the LEFT update
`(b - 1) % size` and the RIGHT update `(b + 1) % size`, with the `int` converted to 64-bit
`size_t` before the remainder is taken, both give an index in `[0, size)`; LEFT at index
`0` gives `(2^64 - 1) mod size`. -/
theorem C19_tracked_index_in_bounds (size : ℕ) (b : ℤ) (hsize : 0 < size) :
    (0 ≤ keyLeft b size ∧ keyLeft b size < size) ∧
    (0 ≤ keyRight b size ∧ keyRight b size < size) ∧
    keyLeft 0 size = (((2 ^ 64 - 1) % size : ℕ) : ℤ) := by
  refine ⟨⟨?_, ?_⟩, ⟨?_, ?_⟩, ?_⟩
  · exact Int.natCast_nonneg _
  · unfold keyLeft
    exact_mod_cast Nat.mod_lt _ hsize
  · exact Int.natCast_nonneg _
  · unfold keyRight
    exact_mod_cast Nat.mod_lt _ hsize
  · unfold keyLeft
    rw [show (0 : ℤ) - 1 = -1 by norm_num, toSizeT_neg_one]

/-- Witness for C19: the fourteen bodies of `main`, the tracked index at `0`; LEFT moves
it to index `1`, RIGHT to index `1` as well. -/
theorem C19_tracked_index_in_bounds_witness :
    0 < 14 ∧
    ((0 ≤ keyLeft 0 14 ∧ keyLeft 0 14 < (14 : ℕ)) ∧
      (0 ≤ keyRight 0 14 ∧ keyRight 0 14 < (14 : ℕ)) ∧
      keyLeft 0 14 = (((2 ^ 64 - 1) % 14 : ℕ) : ℤ)) ∧
    keyLeft 0 14 = 1 ∧ keyRight 0 14 = 1 :=
  ⟨by decide, C19_tracked_index_in_bounds 14 0 (by decide), by decide, by decide⟩

end TrackedIndexClaims

/-! ## The force-law primitives over the real numbers -/

section RealClaims

theorem sumSq_eq_zero_iff (x y z : ℝ) : x ^ 2 + y ^ 2 + z ^ 2 = 0 ↔ x = 0 ∧ y = 0 ∧ z = 0 := by
  constructor
  · intro h
    have hx : x ^ 2 = 0 := by nlinarith [sq_nonneg x, sq_nonneg y, sq_nonneg z]
    have hy : y ^ 2 = 0 := by nlinarith [sq_nonneg x, sq_nonneg y, sq_nonneg z]
    have hz : z ^ 2 = 0 := by nlinarith [sq_nonneg x, sq_nonneg y, sq_nonneg z]
    exact ⟨pow_eq_zero_iff (two_ne_zero) |>.mp hx, pow_eq_zero_iff (two_ne_zero) |>.mp hy,
      pow_eq_zero_iff (two_ne_zero) |>.mp hz⟩
  · rintro ⟨rfl, rfl, rfl⟩
    norm_num

theorem sumSq_nonneg (x y z : ℝ) : 0 ≤ x ^ 2 + y ^ 2 + z ^ 2 := by
  positivity

/-- C13 (distance is a symmetric Euclidean norm): `a.r(b)` is the square root of the sum of
the squared coordinate differences, it is symmetric, non-negative, and zero exactly when
the positions of `a` and `b` agree on all three axes. -/
theorem C13_distance_euclidean (a b : Body ℝ) :
    a.r Real.sqrt b =
      Real.sqrt ((a.c.x - b.c.x) ^ 2 + (a.c.y - b.c.y) ^ 2 + (a.c.z - b.c.z) ^ 2) ∧
    a.r Real.sqrt b = b.r Real.sqrt a ∧
    0 ≤ a.r Real.sqrt b ∧
    (a.r Real.sqrt b = 0 ↔ a.c.x = b.c.x ∧ a.c.y = b.c.y ∧ a.c.z = b.c.z) := by
  refine ⟨rfl, Body.r_comm Real.sqrt a b, Real.sqrt_nonneg _, ?_⟩
  unfold Body.r
  rw [Real.sqrt_eq_zero (sumSq_nonneg _ _ _), sumSq_eq_zero_iff]
  simp only [sub_eq_zero]

theorem Body.r_pos_of_ne (a b : Body ℝ) (h : a.c ≠ b.c) : 0 < a.r Real.sqrt b := by
  unfold Body.r
  apply Real.sqrt_pos.mpr
  rcases (sumSq_nonneg (a.c.x - b.c.x) (a.c.y - b.c.y) (a.c.z - b.c.z)).lt_or_eq with h1 | h1
  · exact h1
  · exfalso
    apply h
    have h2 := (sumSq_eq_zero_iff _ _ _).mp h1.symm
    simp only [sub_eq_zero] at h2
    cases ha : a.c
    cases hb : b.c
    simp only [ha, hb] at h2
    simp [h2.1, h2.2.1, h2.2.2]

theorem Body.r_sq (a b : Body ℝ) :
    (a.r Real.sqrt b) ^ 2 =
      (a.c.x - b.c.x) ^ 2 + (a.c.y - b.c.y) ^ 2 + (a.c.z - b.c.z) ^ 2 := by
  unfold Body.r
  exact Real.sq_sqrt (sumSq_nonneg _ _ _)

/-- C14 (the inverse-cube factor folds normalisation and inverse-square falloff): for
bodies at distinct positions `a.r3(b) = 1 / a.r(b)^3`; the displacement divided by the
distance is a unit vector; the displacement scaled by `a.r3(b)` is that unit vector divided
by `a.r(b)^2`, and its Euclidean norm is `1 / a.r(b)^2`. -/
theorem C14_inverse_cube_factor (a b : Body ℝ) (h : a.c ≠ b.c) :
    a.r3 Real.sqrt b = 1 / (a.r Real.sqrt b) ^ 3 ∧
    Real.sqrt (((a.c.x - b.c.x) / a.r Real.sqrt b) ^ 2 + ((a.c.y - b.c.y) / a.r Real.sqrt b) ^ 2
      + ((a.c.z - b.c.z) / a.r Real.sqrt b) ^ 2) = 1 ∧
    Vector3Scale (Vector3Subtract a.c b.c) (a.r3 Real.sqrt b) =
      ⟨(a.c.x - b.c.x) / a.r Real.sqrt b / (a.r Real.sqrt b) ^ 2,
        (a.c.y - b.c.y) / a.r Real.sqrt b / (a.r Real.sqrt b) ^ 2,
        (a.c.z - b.c.z) / a.r Real.sqrt b / (a.r Real.sqrt b) ^ 2⟩ ∧
    Real.sqrt ((Vector3Scale (Vector3Subtract a.c b.c) (a.r3 Real.sqrt b)).x ^ 2
      + (Vector3Scale (Vector3Subtract a.c b.c) (a.r3 Real.sqrt b)).y ^ 2
      + (Vector3Scale (Vector3Subtract a.c b.c) (a.r3 Real.sqrt b)).z ^ 2) =
      1 / (a.r Real.sqrt b) ^ 2 := by
  have hr : 0 < a.r Real.sqrt b := Body.r_pos_of_ne a b h
  have hr2 := Body.r_sq a b
  have h3 : a.r3 Real.sqrt b = 1 / (a.r Real.sqrt b) ^ 3 := by
    unfold Body.r3
    simp only
    rw [show a.r Real.sqrt b * a.r Real.sqrt b * a.r Real.sqrt b = (a.r Real.sqrt b) ^ 3 by ring]
  generalize a.r Real.sqrt b = r at hr hr2 h3
  have hne : r ≠ 0 := ne_of_gt hr
  refine ⟨h3, ?_, ?_, ?_⟩
  · have e : ((a.c.x - b.c.x) / r) ^ 2 + ((a.c.y - b.c.y) / r) ^ 2 + ((a.c.z - b.c.z) / r) ^ 2
        = 1 := by
      field_simp
      linarith
    rw [e, Real.sqrt_one]
  · simp only [Vector3Scale, Vector3Subtract, h3, Vector3.mk.injEq]
    refine ⟨?_, ?_, ?_⟩ <;> (rw [div_div, mul_one_div]; congr 1; ring)
  · simp only [Vector3Scale, Vector3Subtract, h3]
    have e : ((a.c.x - b.c.x) * (1 / r ^ 3)) ^ 2 + ((a.c.y - b.c.y) * (1 / r ^ 3)) ^ 2
        + ((a.c.z - b.c.z) * (1 / r ^ 3)) ^ 2 = (1 / r ^ 2) ^ 2 := by
      have : ((a.c.x - b.c.x) * (1 / r ^ 3)) ^ 2 + ((a.c.y - b.c.y) * (1 / r ^ 3)) ^ 2
          + ((a.c.z - b.c.z) * (1 / r ^ 3)) ^ 2
          = ((a.c.x - b.c.x) ^ 2 + (a.c.y - b.c.y) ^ 2 + (a.c.z - b.c.z) ^ 2) * (1 / r ^ 3) ^ 2 := by
        ring
      rw [this, ← hr2]
      field_simp
      ring
    rw [e, Real.sqrt_sq (by positivity)]

/-- Witness for C14: a body at `(3, 4, 0)` and a body at the origin, at distance `5`. -/
theorem C14_inverse_cube_factor_witness :
    (bodyAt (1 : ℝ) 3 4 0 0).c ≠ (bodyAt (1 : ℝ) 0 0 0 0).c ∧
    (bodyAt (1 : ℝ) 3 4 0 0).r3 Real.sqrt (bodyAt (1 : ℝ) 0 0 0 0) =
      1 / ((bodyAt (1 : ℝ) 3 4 0 0).r Real.sqrt (bodyAt (1 : ℝ) 0 0 0 0)) ^ 3 :=
  ⟨by simp [bodyAt],
    (C14_inverse_cube_factor (bodyAt (1 : ℝ) 3 4 0 0) (bodyAt (1 : ℝ) 0 0 0 0)
      (by simp [bodyAt])).1⟩

end RealClaims

section RelativisticMass

theorem Body.speedSq_nonneg (b : Body ℝ) : 0 ≤ b.speedSq := by
  unfold Body.speedSq
  nlinarith [mul_self_nonneg b.v.x, mul_self_nonneg b.v.y, mul_self_nonneg b.v.z]

theorem Body.speedSq_eq_zero_iff (b : Body ℝ) : b.speedSq = 0 ↔ b.v = ⟨0, 0, 0⟩ := by
  unfold Body.speedSq
  constructor
  · intro h
    have hx : b.v.x * b.v.x = 0 := by
      nlinarith [mul_self_nonneg b.v.x, mul_self_nonneg b.v.y, mul_self_nonneg b.v.z]
    have hy : b.v.y * b.v.y = 0 := by
      nlinarith [mul_self_nonneg b.v.x, mul_self_nonneg b.v.y, mul_self_nonneg b.v.z]
    have hz : b.v.z * b.v.z = 0 := by
      nlinarith [mul_self_nonneg b.v.x, mul_self_nonneg b.v.y, mul_self_nonneg b.v.z]
    cases hv : b.v
    simp only [hv, mul_self_eq_zero] at hx hy hz
    simp [hx, hy, hz]
  · intro h
    simp [h]

theorem Body.mm_eq (sqrt : ℝ → ℝ) (b : Body ℝ) :
    b.mm sqrt = b.mass / sqrt (1 - b.speedSq / (25902 * 25902)) :=
  rfl

/-- Below the speed bound the radicand of `Body::mm` lies in `(0, 1]`. -/
theorem radicand_pos_of_lt (s : ℝ) (hs : Real.sqrt s < 25902) :
    0 < 1 - s / (25902 * 25902) := by
  have h1 : s < 25902 ^ 2 := (Real.sqrt_lt' (by norm_num)).mp hs
  have h2 : s / (25902 * 25902) < 1 := by
    rw [div_lt_one (by norm_num)]
    linarith
  linarith

theorem sqrt_speedSq_bodyAt (m x y z vx : ℝ) (hv : 0 ≤ vx) :
    Real.sqrt (bodyAt m x y z vx).speedSq = vx := by
  have h : (bodyAt m x y z vx).speedSq = vx * vx := by
    simp [bodyAt, Body.speedSq]
  rw [h, Real.sqrt_mul_self hv]

end RelativisticMass

/-! ## The acceleration pass against a snapshot -/

section HazardClaims

variable {α : Type} [Add α] [Sub α] [Mul α] [Div α] [Neg α] [Zero α] [One α]
  [NatCast α] [OfScientific α] [Pow α ℕ]

/-- The state of the in-place loop after the indices of `order` have been run, in any
order and with repetitions: the bodies at these indices carry the acceleration computed
from the vector as it was on entry, the others are untouched. -/
theorem accelLoopIn_get (k : α) (sqrt : α → α) (v : List (Body α)) (order : List ℕ) :
    (accelLoopIn k sqrt order v).length = v.length ∧
    ∀ j : ℕ, (accelLoopIn k sqrt order v)[j]? =
      if j ∈ order then (v[j]?).map (fun b => { b with a := accelSum k sqrt v j })
      else v[j]? := by
  induction order using List.reverseRecOn with
  | nil => simp [accelLoopIn]
  | append_singleton o i ih =>
    obtain ⟨hlen, hget⟩ := ih
    have hstep : accelLoopIn k sqrt (o ++ [i]) v =
        match (accelLoopIn k sqrt o v)[i]? with
        | some bi => (accelLoopIn k sqrt o v).set i
            { bi with a := accelSum k sqrt (accelLoopIn k sqrt o v) i }
        | none => accelLoopIn k sqrt o v := by
      simp [accelLoopIn, List.foldl_append]
    rw [hstep]
    generalize accelLoopIn k sqrt o v = W at hlen hget
    have hsum : accelSum k sqrt W i = accelSum k sqrt v i := by
      apply accelSum_congr k sqrt hlen
      intro j
      rw [hget j]
      split
      · cases v[j]? <;> simp [Body.sansA]
      · rfl
    cases hWi : W[i]? with
    | none =>
      simp only
      refine ⟨hlen, fun j => ?_⟩
      rw [hget j]
      by_cases hji : j = i
      · subst hji
        have hv : v[j]? = none := by
          have h1 := List.getElem?_eq_none_iff.mp hWi
          exact List.getElem?_eq_none_iff.mpr (hlen ▸ h1)
        simp [hv]
      · simp [hji]
    | some bi =>
      simp only [hsum]
      refine ⟨by simp [hlen], fun j => ?_⟩
      rw [List.getElem?_set]
      by_cases hji : i = j
      · subst hji
        have hlt : i < W.length := by
          by_contra hcon
          rw [List.getElem?_eq_none (Nat.le_of_not_lt hcon)] at hWi
          cases hWi
        have hbi : (v[i]?).map (fun b => { b with a := accelSum k sqrt v i }) =
            some { bi with a := accelSum k sqrt v i } := by
          have h1 := hget i
          rw [hWi] at h1
          by_cases hio : i ∈ o
          · rw [if_pos hio] at h1
            cases hv : v[i]? with
            | none => rw [hv] at h1; cases h1
            | some b =>
              rw [hv] at h1
              simp only [Option.map_some', Option.some.injEq] at h1 ⊢
              rw [h1]
          · rw [if_neg hio] at h1
            rw [← h1]
            rfl
        simp [hlt, hbi]
      · have hji2 : ¬ j = i := fun h => hji h.symm
        simp only [hji, if_false, List.mem_append, List.mem_singleton, hji2, or_false]
        exact hget j

theorem accelLoopIn_eq_snapshot (k : α) (sqrt : α → α) (v : List (Body α)) (order : List ℕ)
    (h : order.Perm (List.range v.length)) :
    accelLoopIn k sqrt order v = accelSnapshot k sqrt v := by
  apply List.ext_getElem?
  intro j
  rw [(accelLoopIn_get k sqrt v order).2 j, accelSnapshot, List.getElem?_mapIdx]
  by_cases hj : j < v.length
  · rw [if_pos (h.mem_iff.mpr (List.mem_range.mpr hj))]
  · rw [List.getElem?_eq_none (Nat.le_of_not_lt hj)]
    simp

/-- C15 (the acceleration pass has no read/write hazard): the in-place sequential double
loop of `init` (factor `-1`) and of `cycle` (factor `-2.975e-3`) gives every body the
acceleration computed from an immutable snapshot of the state taken before the pass; so
does the same loop body run over the indices in any other order; and the pass changes no
field other than the acceleration.  No law of arithmetic is used. -/
theorem C15_acceleration_pass_no_hazard (k : α) (sqrt : α → α) (v : List (Body α))
    (dt : α) :
    accelLoop k sqrt v = accelSnapshot k sqrt v ∧
    (∀ order : List ℕ, order.Perm (List.range v.length) →
      accelLoopIn k sqrt order v = accelSnapshot k sqrt v) ∧
    (accelLoop k sqrt v).map Body.sansA = v.map Body.sansA ∧
    init sqrt v dt = halfKick dt (accelSnapshot (-1) sqrt v) ∧
    cycleStep sqrt dt v =
      velocityPhase dt (accelSnapshot (-2.975e-3) sqrt (positionPhase sqrt dt v)) := by
  have h : ∀ (k : α) (w : List (Body α)), accelLoop k sqrt w = accelSnapshot k sqrt w :=
    fun k w => accelLoop_eq_mapIdx k sqrt w
  refine ⟨h k v, fun order ho => accelLoopIn_eq_snapshot k sqrt v order ho,
    map_accelLoop Body.sansA (fun _ _ => rfl) k sqrt v, ?_, ?_⟩
  · rw [init, h]
  · rw [cycleStep, h]

/-- Witness for C15: the Sun, the Earth and a probe, the loop run in the order `2, 0, 1`. -/
theorem C15_acceleration_pass_no_hazard_witness :
    [2, 0, 1].Perm (List.range [sunQ, earthQ, probeQ].length) ∧
    accelLoopIn (-1) Rat.sqrt [2, 0, 1] [sunQ, earthQ, probeQ] =
      accelSnapshot (-1) Rat.sqrt [sunQ, earthQ, probeQ] :=
  ⟨by decide,
    (C15_acceleration_pass_no_hazard (-1) Rat.sqrt [sunQ, earthQ, probeQ] 0.001).2.1 [2, 0, 1]
      (by decide)⟩

end HazardClaims

/-! ## Cancellation of the mass-weighted accelerations -/

section Cancellation

variable {K : Type} [Field K]

/-- A double sum of symmetric weights times coordinate differences vanishes. -/
theorem sum_symm_mul_diff {n : ℕ} (G : Fin n → Fin n → K) (c : Fin n → K)
    (hG : ∀ i j, G i j = G j i) : ∑ i, ∑ j, G i j * (c i - c j) = 0 := by
  simp only [mul_sub, Finset.sum_sub_distrib]
  rw [sub_eq_zero]
  conv_rhs => rw [Finset.sum_comm]
  apply Finset.sum_congr rfl
  intro i _
  apply Finset.sum_congr rfl
  intro j _
  rw [hG]

/-- The accelerations the pass computes from `w`, weighted by the relativistic masses of
the bodies of `w`, add up to zero on every axis. -/
theorem weighted_accelSum_zero (k : K) (sqrt : K → K) (w : List (Body K)) :
    ∑ i : Fin w.length, (w.get i).mm sqrt * (accelSum k sqrt w i.val).x = 0 ∧
    ∑ i : Fin w.length, (w.get i).mm sqrt * (accelSum k sqrt w i.val).y = 0 ∧
    ∑ i : Fin w.length, (w.get i).mm sqrt * (accelSum k sqrt w i.val).z = 0 := by
  have key : ∀ c : Body K → K,
      ∑ i : Fin w.length, (w.get i).mm sqrt *
        (∑ j ∈ Finset.univ.erase i,
          (c (w.get i) - c (w.get j)) * k * (w.get j).mm sqrt * (w.get i).r3 sqrt (w.get j))
        = 0 := by
    intro c
    rw [← sum_symm_mul_diff
      (fun i j : Fin w.length =>
        k * (w.get i).mm sqrt * (w.get j).mm sqrt * (w.get i).r3 sqrt (w.get j))
      (fun i => c (w.get i))
      (fun i j => by simp only [Body.r3_comm sqrt (w.get i) (w.get j)]; ring)]
    apply Finset.sum_congr rfl
    intro i _
    rw [Finset.sum_erase Finset.univ (by ring), Finset.mul_sum]
    apply Finset.sum_congr rfl
    intro j _
    ring
  refine ⟨?_, ?_, ?_⟩
  · rw [← key fun b => b.c.x]
    apply Finset.sum_congr rfl
    intro i _
    rw [accelSum_eq_sum k sqrt w i]
    rfl
  · rw [← key fun b => b.c.y]
    apply Finset.sum_congr rfl
    intro i _
    rw [accelSum_eq_sum k sqrt w i]
    rfl
  · rw [← key fun b => b.c.z]
    apply Finset.sum_congr rfl
    intro i _
    rw [accelSum_eq_sum k sqrt w i]
    rfl

/-- A sum over the bodies of `w`, each paired with an index-dependent value, as a sum over
the indices. -/
theorem sum_mapIdx_eq (w : List (Body K)) (h : ℕ → Body K → K) :
    (w.mapIdx h).sum = ∑ i : Fin w.length, h i.val (w.get i) := by
  rw [List.mapIdx_eq_ofFn, List.sum_ofFn]

theorem zipWith_init_eq (sqrt : K → K) (v : List (Body K)) (dt : K)
    (p : Vector3 K → K) :
    List.zipWith (fun b b2 => b.mm sqrt * p b2.a) v (init sqrt v dt) =
      v.mapIdx fun i b => b.mm sqrt * p (accelSum (-1) sqrt v i) := by
  apply List.ext_getElem?
  intro i
  rw [List.getElem?_zipWith, getElem?_init, List.getElem?_mapIdx]
  cases v[i]? <;> rfl

theorem zipWith_cycleStep_eq (sqrt : K → K) (v : List (Body K)) (dt : K)
    (p : Vector3 K → K) :
    List.zipWith (fun b b2 => b.mm sqrt * p b2.a) v (cycleStep sqrt dt v) =
      (positionPhase sqrt dt v).mapIdx fun i b =>
        b.mm sqrt * p (accelSum (-2.975e-3) sqrt (positionPhase sqrt dt v) i) := by
  apply List.ext_getElem?
  intro i
  rw [List.getElem?_zipWith, getElem?_cycleStep, List.getElem?_mapIdx]
  have hp : (positionPhase sqrt dt v)[i]? = (v[i]?).map (fun b =>
      { b with
        c := Vector3Add b.c
          (Vector3Multiply (Vector3Scale b.v dt)
            (Vector3Sqrt sqrt
              (ScalarMinus 1 (Vector3Multiply (Vector3Div b.v sol) (Vector3Div b.v sol))))) }) := by
    rw [positionPhase, List.getElem?_map]
  rw [hp]
  cases v[i]? <;> rfl

end Cancellation

/-! ## Reordering the bodies -/

section Reordering

variable {K : Type} [Field K]

/-- The inner loop on a system given by its bodies `f 0, ..., f (n - 1)`. -/
theorem accelSum_ofFn (k : K) (sqrt : K → K) {n : ℕ} (f : Fin n → Body K) (i : Fin n) :
    accelSum k sqrt (List.ofFn f) i.val =
      ⟨∑ j, (accelTerm k sqrt (f i) (f j)).x, ∑ j, (accelTerm k sqrt (f i) (f j)).y,
        ∑ j, (accelTerm k sqrt (f i) (f j)).z⟩ := by
  have h0 : ∀ b : Body K, accelTerm k sqrt b b = ⟨0, 0, 0⟩ := by
    intro b
    simp [accelTerm, Vector3Scale, Vector3Subtract]
  have aux : ∀ (w : List (Body K)) (hw : w.length = n),
      (∀ j : Fin n, w.get (Fin.cast hw.symm j) = f j) →
      accelSum k sqrt w i.val =
        ⟨∑ j, (accelTerm k sqrt (f i) (f j)).x, ∑ j, (accelTerm k sqrt (f i) (f j)).y,
          ∑ j, (accelTerm k sqrt (f i) (f j)).z⟩ := by
    intro w hw hf
    subst hw
    have hf2 : f = w.get := by
      funext j
      exact (hf j).symm
    subst hf2
    rw [accelSum_eq_sum k sqrt w i,
      Finset.sum_erase Finset.univ (by rw [h0]),
      Finset.sum_erase Finset.univ (by rw [h0]),
      Finset.sum_erase Finset.univ (by rw [h0])]
  apply aux (List.ofFn f) (List.length_ofFn f)
  intro j
  simp

/-- The inner loop does not depend on the order of the bodies. -/
theorem accelSum_ofFn_comp (k : K) (sqrt : K → K) {n : ℕ} (f : Fin n → Body K)
    (σ : Equiv.Perm (Fin n)) (i : Fin n) :
    accelSum k sqrt (List.ofFn (f ∘ σ)) i.val = accelSum k sqrt (List.ofFn f) (σ i).val := by
  rw [accelSum_ofFn, accelSum_ofFn]
  simp only [Function.comp_apply]
  rw [Equiv.sum_comp σ fun j => (accelTerm k sqrt (f (σ i)) (f j)).x,
    Equiv.sum_comp σ fun j => (accelTerm k sqrt (f (σ i)) (f j)).y,
    Equiv.sum_comp σ fun j => (accelTerm k sqrt (f (σ i)) (f j)).z]

theorem getElem?_ofFn_lt {β : Type} {n : ℕ} (g : Fin n → β) (j : ℕ) (hj : j < n) :
    (List.ofFn g)[j]? = some (g ⟨j, hj⟩) := by
  rw [List.getElem?_eq_getElem (by simpa using hj)]
  simp

/-- The acceleration loop on a system given by its bodies `f 0, ..., f (n - 1)`. -/
theorem accelLoop_ofFn (k : K) (sqrt : K → K) {n : ℕ} (f : Fin n → Body K) :
    accelLoop k sqrt (List.ofFn f) =
      List.ofFn fun i : Fin n => { f i with a := accelSum k sqrt (List.ofFn f) i.val } := by
  apply List.ext_getElem?
  intro j
  rw [getElem?_accelLoop]
  by_cases hj : j < n
  · rw [getElem?_ofFn_lt f j hj, getElem?_ofFn_lt _ j hj]
    rfl
  · rw [List.getElem?_eq_none (by simpa using hj), List.getElem?_eq_none (by simpa using hj)]
    rfl

/-- The acceleration loop commutes with reordering the bodies. -/
theorem accelLoop_ofFn_comp (k : K) (sqrt : K → K) {n : ℕ} (f : Fin n → Body K)
    (σ : Equiv.Perm (Fin n)) :
    ∃ g : Fin n → Body K, accelLoop k sqrt (List.ofFn f) = List.ofFn g ∧
      accelLoop k sqrt (List.ofFn (f ∘ σ)) = List.ofFn (g ∘ σ) := by
  refine ⟨_, accelLoop_ofFn k sqrt f, ?_⟩
  rw [accelLoop_ofFn k sqrt (f ∘ σ)]
  congr 1
  funext i
  simp only [Function.comp_apply, accelSum_ofFn_comp k sqrt f σ i]

/-- A per-body update, the acceleration loop and another per-body update, in this order,
commute with reordering the bodies. -/
theorem map_accelLoop_map_ofFn_comp (p q : Body K → Body K) (k : K) (sqrt : K → K) {n : ℕ}
    (f : Fin n → Body K) (σ : Equiv.Perm (Fin n)) :
    ∃ g : Fin n → Body K, (accelLoop k sqrt ((List.ofFn f).map p)).map q = List.ofFn g ∧
      (accelLoop k sqrt ((List.ofFn (f ∘ σ)).map p)).map q = List.ofFn (g ∘ σ) := by
  obtain ⟨g, h1, h2⟩ := accelLoop_ofFn_comp k sqrt (p ∘ f) σ
  have h2b : accelLoop k sqrt (List.ofFn (p ∘ (f ∘ σ))) = List.ofFn (g ∘ σ) := h2
  refine ⟨q ∘ g, ?_, ?_⟩
  · rw [List.map_ofFn, h1, List.map_ofFn]
  · rw [List.map_ofFn, h2b, List.map_ofFn]
    rfl

theorem cycleStep_ofFn_comp (sqrt : K → K) (dt : K) {n : ℕ} (f : Fin n → Body K)
    (σ : Equiv.Perm (Fin n)) :
    ∃ g : Fin n → Body K, cycleStep sqrt dt (List.ofFn f) = List.ofFn g ∧
      cycleStep sqrt dt (List.ofFn (f ∘ σ)) = List.ofFn (g ∘ σ) :=
  map_accelLoop_map_ofFn_comp _ _ (-2.975e-3) sqrt f σ

theorem iterate_cycleStep_ofFn_comp (sqrt : K → K) (dt : K) {n : ℕ}
    (σ : Equiv.Perm (Fin n)) (m : ℕ) :
    ∀ f : Fin n → Body K, ∃ g : Fin n → Body K,
      (cycleStep sqrt dt)^[m] (List.ofFn f) = List.ofFn g ∧
      (cycleStep sqrt dt)^[m] (List.ofFn (f ∘ σ)) = List.ofFn (g ∘ σ) := by
  induction m with
  | zero => exact fun f => ⟨f, rfl, rfl⟩
  | succ m ih =>
    intro f
    obtain ⟨g, h1, h2⟩ := cycleStep_ofFn_comp sqrt dt f σ
    obtain ⟨g2, h3, h4⟩ := ih g
    exact ⟨g2, by rw [Function.iterate_succ_apply, h1, h3],
      by rw [Function.iterate_succ_apply, h2, h4]⟩

/-- C17 (body order carries no physics), in exact arithmetic: let the system consist of the
bodies `f 0, ..., f (n - 1)` and let `σ` be a permutation of the indices, so that
`List.ofFn (f ∘ σ)` is the reordered system.  Then `init`, and `cycle` for every step count,
give on the reordered system the reordered result: if the result on the system is
`g 0, ..., g (n - 1)`, the result on the reordered system is `g (σ 0), ..., g (σ (n - 1))`. -/
theorem C17_body_order_carries_no_physics (sqrt : K → K) (dt : K) {n : ℕ}
    (f : Fin n → Body K) (σ : Equiv.Perm (Fin n)) :
    (∃ g : Fin n → Body K, init sqrt (List.ofFn f) dt = List.ofFn g ∧
      init sqrt (List.ofFn (f ∘ σ)) dt = List.ofFn (g ∘ σ)) ∧
    ∀ steps : ℚ, ∃ g : Fin n → Body K, cycle sqrt (List.ofFn f) dt steps = List.ofFn g ∧
      cycle sqrt (List.ofFn (f ∘ σ)) dt steps = List.ofFn (g ∘ σ) := by
  constructor
  · obtain ⟨g, h1, h2⟩ := accelLoop_ofFn_comp (-1) sqrt f σ
    unfold init halfKick
    rw [h1, h2, List.map_ofFn, List.map_ofFn]
    exact ⟨_, rfl, rfl⟩
  · intro steps
    rw [cycle_eq_iterate, cycle_eq_iterate]
    exact iterate_cycleStep_ofFn_comp sqrt dt σ _ f

end Reordering

/-! ## Coincident positions and non-finite values -/

section AbsorbingSum

variable {α : Type} [Add α] [Sub α] [Mul α] [Div α] [Neg α] [Zero α] [One α]
  [NatCast α] [OfScientific α] [Pow α ℕ]

/-- The inner loop, once it has added to `sum` a term `N` that absorbs every addition,
holds `N` and keeps it. -/
theorem accelSum_absorbing (k : α) (sqrt : α → α) (v : List (Body α)) (i j : Fin v.length)
    (hij : i ≠ j) (N : Vector3 α) (hT : accelTerm k sqrt (v.get i) (v.get j) = N)
    (hl : ∀ s : Vector3 α, Vector3Add s N = N) (hr : ∀ t : Vector3 α, Vector3Add N t = N) :
    accelSum k sqrt v i.val = N := by
  have hne : i.val ≠ j.val := fun h => hij (Fin.ext h)
  have key : ∀ m, j.val < m → m ≤ v.length →
      (List.range m).foldl
        (fun sum j =>
          if i.val ≠ j then
            match v[i.val]?, v[j]? with
            | some bi, some bj => Vector3Add sum (accelTerm k sqrt bi bj)
            | _, _ => sum
          else sum)
        (⟨0, 0, 0⟩ : Vector3 α) = N := by
    intro m
    induction m with
    | zero => intro h; omega
    | succ m ih =>
      intro hjm hm
      have hmv : m < v.length := hm
      rw [List.range_succ, List.foldl_append]
      by_cases hj : j.val < m
      · rw [ih hj (Nat.le_of_succ_le hm)]
        simp only [List.foldl_cons, List.foldl_nil]
        split
        · split
          · exact hr _
          · rfl
        · rfl
      · have hjm2 : j.val = m := by omega
        have hvm : v[m] = v.get j := by
          subst hjm2
          rfl
        have him : i.val ≠ m := hjm2 ▸ hne
        simp only [List.foldl_cons, List.foldl_nil]
        rw [if_pos him, List.getElem?_eq_getElem i.isLt, List.getElem?_eq_getElem hmv]
        simp only
        rw [hvm, show v[i.val] = v.get i from rfl, hT]
        exact hl _
  exact key v.length j.isLt (Nat.le_refl _)

end AbsorbingSum

section NonFiniteLemmas

variable {K : Type} [Field K] [DecidableEq K]

@[simp] theorem Fl.fin_add_fin (a b : K) : (Fl.fin a + Fl.fin b : Fl K) = Fl.fin (a + b) := rfl

@[simp] theorem Fl.fin_sub_fin (a b : K) : (Fl.fin a - Fl.fin b : Fl K) = Fl.fin (a - b) := rfl

@[simp] theorem Fl.fin_mul_fin (a b : K) : (Fl.fin a * Fl.fin b : Fl K) = Fl.fin (a * b) := rfl

@[simp] theorem Fl.fin_div_fin (a b : K) :
    (Fl.fin a / Fl.fin b : Fl K) = if b = 0 then Fl.nonfin else Fl.fin (a / b) := rfl

@[simp] theorem Fl.fin_pow (a : K) (n : ℕ) : (Fl.fin a ^ n : Fl K) = Fl.fin (a ^ n) := rfl

@[simp] theorem Fl.nonfin_pow (n : ℕ) : (Fl.nonfin ^ n : Fl K) = Fl.nonfin := rfl

@[simp] theorem Fl.add_nonfin (x : Fl K) : x + Fl.nonfin = Fl.nonfin := by
  cases x <;> rfl

@[simp] theorem Fl.nonfin_add (x : Fl K) : Fl.nonfin + x = Fl.nonfin := by
  cases x <;> rfl

@[simp] theorem Fl.sub_nonfin (x : Fl K) : x - Fl.nonfin = Fl.nonfin := by
  cases x <;> rfl

@[simp] theorem Fl.nonfin_sub (x : Fl K) : Fl.nonfin - x = Fl.nonfin := by
  cases x <;> rfl

@[simp] theorem Fl.mul_nonfin (x : Fl K) : x * Fl.nonfin = Fl.nonfin := by
  cases x <;> rfl

@[simp] theorem Fl.nonfin_mul (x : Fl K) : Fl.nonfin * x = Fl.nonfin := by
  cases x <;> rfl

@[simp] theorem Fl.div_nonfin (x : Fl K) : x / Fl.nonfin = Fl.nonfin := by
  cases x <;> rfl

@[simp] theorem Fl.nonfin_div (x : Fl K) : Fl.nonfin / x = Fl.nonfin := by
  cases x <;> rfl

theorem Fl.one_eq : (1 : Fl K) = Fl.fin 1 := rfl

theorem Fl.zero_eq : (0 : Fl K) = Fl.fin 0 := rfl

theorem Fl.sol_eq : (sol : Fl K) = Fl.fin 25902 := rfl

/-- Two bodies at the same position: the inverse-cube factor is non-finite. -/
theorem Body.r3_nonfin_of_same_position (sqrt : Fl K → Fl K) (h0 : sqrt (Fl.fin 0) = Fl.fin 0)
    (hn : sqrt Fl.nonfin = Fl.nonfin) (bi bj : Body (Fl K)) (hc : bi.c = bj.c) :
    bi.r3 sqrt bj = Fl.nonfin := by
  unfold Body.r3 Body.r
  rw [hc]
  obtain ⟨x, y, z⟩ := bj.c
  cases x <;> cases y <;> cases z <;> simp [h0, hn, Fl.one_eq]

/-- The vector with three non-finite components. -/
theorem accelTerm_nonfin (k : Fl K) (sqrt : Fl K → Fl K) (bi bj : Body (Fl K))
    (h : bi.r3 sqrt bj = Fl.nonfin) :
    accelTerm k sqrt bi bj = ⟨Fl.nonfin, Fl.nonfin, Fl.nonfin⟩ := by
  simp [accelTerm, Vector3Scale, h]

/-- The inner loop, between two bodies at the same position, holds a non-finite sum. -/
theorem accelSum_nonfin (k : Fl K) (sqrt : Fl K → Fl K) (h0 : sqrt (Fl.fin 0) = Fl.fin 0)
    (hn : sqrt Fl.nonfin = Fl.nonfin) (v : List (Body (Fl K))) (i j : Fin v.length)
    (hij : i ≠ j) (hc : (v.get i).c = (v.get j).c) :
    accelSum k sqrt v i.val = ⟨Fl.nonfin, Fl.nonfin, Fl.nonfin⟩ := by
  apply accelSum_absorbing k sqrt v i j hij
  · exact accelTerm_nonfin k sqrt _ _ (Body.r3_nonfin_of_same_position sqrt h0 hn _ _ hc)
  · intro s
    simp [Vector3Add]
  · intro t
    simp [Vector3Add]

end NonFiniteLemmas

section NonFiniteClaims

variable {K : Type} [Field K] [DecidableEq K]

/-- The positions after one step of `cycle` are those the position phase computes. -/
theorem map_c_cycleStep {α : Type} [Add α] [Sub α] [Mul α] [Div α] [Neg α] [Zero α] [One α]
    [NatCast α] [OfScientific α] [Pow α ℕ] (sqrt : α → α) (dt : α) (v : List (Body α)) :
    (cycleStep sqrt dt v).map Body.c = (positionPhase sqrt dt v).map Body.c := by
  unfold cycleStep velocityPhase
  rw [List.map_map]
  have h1 : (Body.c ∘ fun b : Body α =>
      { b with v := Vector3Add b.v (Vector3Scale b.a dt) }) = Body.c := by
    funext b
    rfl
  rw [h1, map_accelLoop Body.c (fun _ _ => rfl)]

/-- After `init`, a body that shares its position with another body has a non-finite
velocity, and one step of `cycle` then makes its position non-finite. -/
theorem position_nonfin_of_same_position (sqrt : Fl K → Fl K)
    (h0 : sqrt (Fl.fin 0) = Fl.fin 0) (hn : sqrt Fl.nonfin = Fl.nonfin)
    (v : List (Body (Fl K))) (dt : Fl K) (i j : Fin v.length) (hij : i ≠ j)
    (hc : (v.get i).c = (v.get j).c) :
    ∃ b, (cycle sqrt (init sqrt v dt) dt 1)[i.val]? = some b ∧
      b.c = ⟨Fl.nonfin, Fl.nonfin, Fl.nonfin⟩ := by
  have hA := accelSum_nonfin (-1) sqrt h0 hn v i j hij hc
  have hi := getElem?_init sqrt v dt i.val
  rw [List.getElem?_eq_getElem i.isLt, hA] at hi
  have hs := getElem?_cycleStep sqrt dt (init sqrt v dt) i.val
  rw [positionPhase, List.getElem?_map, hi, ← positionPhase, ← cycle_one] at hs
  refine ⟨_, hs, ?_⟩
  simp [Vector3Add, Vector3Multiply, Vector3Scale]

/-- C11, as amended (degenerate-input propagation): when two bodies of a system are at
identical positions, after `init` followed by one call of `cycle` with `steps = 1` the
position of each of the two bodies is non-finite on every axis.  The square root is any
function with `sqrt 0 = 0` that maps the non-finite value to itself. -/
theorem C11_init_then_cycle_position_nonfinite (sqrt : Fl K → Fl K)
    (h0 : sqrt (Fl.fin 0) = Fl.fin 0) (hn : sqrt Fl.nonfin = Fl.nonfin)
    (v : List (Body (Fl K))) (dt : Fl K) (i j : Fin v.length) (hij : i ≠ j)
    (hc : (v.get i).c = (v.get j).c) :
    (∃ b, (cycle sqrt (init sqrt v dt) dt 1)[i.val]? = some b ∧
      b.c = ⟨Fl.nonfin, Fl.nonfin, Fl.nonfin⟩) ∧
    (∃ b, (cycle sqrt (init sqrt v dt) dt 1)[j.val]? = some b ∧
      b.c = ⟨Fl.nonfin, Fl.nonfin, Fl.nonfin⟩) :=
  ⟨position_nonfin_of_same_position sqrt h0 hn v dt i j hij hc,
    position_nonfin_of_same_position sqrt h0 hn v dt j i (Ne.symm hij) hc.symm⟩

theorem sqrtQ_zero : sqrtQ (Fl.fin 0) = Fl.fin 0 := by
  simp [sqrtQ]

theorem rat_sqrt_sixteen_twentyfifths : Rat.sqrt (16 / 25) = 4 / 5 := by
  rw [show (16 / 25 : ℚ) = (4 / 5) * (4 / 5) by norm_num, Rat.sqrt_eq]
  norm_num [abs_of_pos]

/-- Witness for the amended C11: the two bodies `twinA` and `twinB`, at the same position. -/
theorem C11_init_then_cycle_position_nonfinite_witness :
    (sqrtQ (Fl.fin 0) = Fl.fin 0 ∧ sqrtQ Fl.nonfin = Fl.nonfin ∧
      (⟨0, by decide⟩ : Fin [twinA, twinB].length) ≠ ⟨1, by decide⟩ ∧
      ([twinA, twinB].get ⟨0, by decide⟩).c = ([twinA, twinB].get ⟨1, by decide⟩).c) ∧
    ((∃ b, (cycle sqrtQ (init sqrtQ [twinA, twinB] (Fl.fin 0.001)) (Fl.fin 0.001) 1)[0]? = some b ∧
        b.c = ⟨Fl.nonfin, Fl.nonfin, Fl.nonfin⟩) ∧
      (∃ b, (cycle sqrtQ (init sqrtQ [twinA, twinB] (Fl.fin 0.001)) (Fl.fin 0.001) 1)[1]? = some b ∧
        b.c = ⟨Fl.nonfin, Fl.nonfin, Fl.nonfin⟩)) :=
  ⟨⟨sqrtQ_zero, rfl, by decide, rfl⟩,
    C11_init_then_cycle_position_nonfinite sqrtQ sqrtQ_zero rfl [twinA, twinB] (Fl.fin 0.001)
      ⟨0, by decide⟩ ⟨1, by decide⟩ (by decide) rfl⟩

/-- Counterexample to C11 as stated: `twinA` and `twinB` are at identical positions and move
at three fifths of `sol`; after one call of `cycle` with `steps = 1` and `dt = 0.001`, not
preceded by `init`, the positions of both bodies are finite. -/
theorem C11_cycle_alone_positions_finite :
    twinA.c = twinB.c ∧
    (cycle sqrtQ [twinA, twinB] (Fl.fin 0.001) 1).map Body.c =
      [⟨Fl.fin 12.43296, Fl.fin 150, Fl.fin 0⟩, ⟨Fl.fin 12.43296, Fl.fin 150, Fl.fin 0⟩] ∧
    ¬ ∃ b ∈ cycle sqrtQ [twinA, twinB] (Fl.fin 0.001) 1, b.c.isFinite = false := by
  have hpos : (cycle sqrtQ [twinA, twinB] (Fl.fin 0.001) 1).map Body.c =
      [⟨Fl.fin 12.43296, Fl.fin 150, Fl.fin 0⟩, ⟨Fl.fin 12.43296, Fl.fin 150, Fl.fin 0⟩] := by
    rw [cycle_one, map_c_cycleStep]
    have e1 : (1 : ℚ) - 15541.2 * (1 / 25902) * (15541.2 * (1 / 25902)) = 16 / 25 := by
      norm_num
    have e2 : Rat.sqrt 1 = 1 := by decide
    simp only [positionPhase, twinA, twinB, Vector3Add, Vector3Multiply, Vector3Scale,
      Vector3Sqrt, ScalarMinus, Vector3Subtract, Vector3Div, Fl.sol_eq, Fl.one_eq, sqrtQ,
      List.map_cons, List.map_nil, Fl.fin_add_fin, Fl.fin_sub_fin, Fl.fin_mul_fin,
      Fl.fin_div_fin]
    norm_num [e1, e2, rat_sqrt_sixteen_twentyfifths]
  refine ⟨rfl, hpos, ?_⟩
  rintro ⟨b, hb, hfin⟩
  have hmem : b.c ∈ (cycle sqrtQ [twinA, twinB] (Fl.fin 0.001) 1).map Body.c :=
    List.mem_map_of_mem Body.c hb
  rw [hpos] at hmem
  simp only [List.mem_cons, List.mem_singleton, List.not_mem_nil, or_false, or_self] at hmem
  rw [hmem] at hfin
  simp [Vector3.isFinite, Fl.isFinite] at hfin

end NonFiniteClaims

/-! ## The step loop with the 32-bit counter -/

section IntCounterLemmas

variable {α : Type} [Add α] [Sub α] [Mul α] [Div α] [Neg α] [Zero α] [One α]
  [NatCast α] [OfScientific α] [Pow α ℕ]

theorem intIncr_of_lt (i : ℤ) (h0 : 0 ≤ i) (h : i < 2147483647) : intIncr i = i + 1 := by
  unfold intIncr
  omega

/-- Every value of the counter after an increment is in the range of `int`. -/
theorem intIncr_range (i : ℤ) : -2147483648 ≤ intIncr i ∧ intIncr i ≤ 2147483647 := by
  unfold intIncr
  omega

/-- A step count above `INT_MAX` is above every value of the counter: the loop never ends. -/
theorem cycleIntFrom_eq_none (sqrt : α → α) (dt : α) (steps : ℚ) (hs : 2147483647 < steps) :
    ∀ (fuel : ℕ) (i : ℤ) (v : List (Body α)), i ≤ 2147483647 →
      cycleIntFrom sqrt dt steps fuel i v = none := by
  intro fuel
  induction fuel with
  | zero => intro i v _; rfl
  | succ fuel ih =>
    intro i v h1
    have hlt : (i : ℚ) < steps := by
      have : (i : ℚ) ≤ 2147483647 := by exact_mod_cast h1
      linarith
    rw [cycleIntFrom, if_pos hlt]
    exact ih _ _ (intIncr_range i).2

/-- With a step count up to `INT_MAX` the counter never overflows, and the loop ends after
the remaining `⌈steps⌉ - i` iterations. -/
theorem cycleIntFrom_eq_some (sqrt : α → α) (dt : α) (steps : ℚ) (hs : steps ≤ 2147483647) :
    ∀ (d : ℕ) (i : ℤ) (v : List (Body α)) (fuel : ℕ), 0 ≤ i → (⌈steps⌉ - i).toNat = d →
      d + 1 ≤ fuel →
      cycleIntFrom sqrt dt steps fuel i v = some ((cycleStep sqrt dt)^[d] v) := by
  have hceil : ⌈steps⌉ ≤ 2147483647 := Int.ceil_le.mpr (by exact_mod_cast hs)
  intro d
  induction d with
  | zero =>
    intro i v fuel _ hd hf
    obtain ⟨f, rfl⟩ : ∃ f, fuel = f + 1 := ⟨fuel - 1, by omega⟩
    have hn : ¬ ((i : ℚ) < steps) := by
      intro h
      have h2 : i < ⌈steps⌉ := Int.lt_ceil.mpr h
      omega
    rw [cycleIntFrom, if_neg hn]
    rfl
  | succ d ih =>
    intro i v fuel h0 hd hf
    obtain ⟨f, rfl⟩ : ∃ f, fuel = f + 1 := ⟨fuel - 1, by omega⟩
    have h2 : i < ⌈steps⌉ := by omega
    have hlt : (i : ℚ) < steps := Int.lt_ceil.mp h2
    rw [cycleIntFrom, if_pos hlt, intIncr_of_lt i h0 (by omega),
      ih (i + 1) _ f (by omega) (by omega) (by omega), Function.iterate_succ_apply]

/-- For a step count up to `INT_MAX` the call returns what the loop with a counter that
cannot overflow computes. -/
theorem cycleReturns_cycle (sqrt : α → α) (v : List (Body α)) (dt : α) (steps : ℚ)
    (hs : steps ≤ 2147483647) : CycleReturns sqrt v dt steps (cycle sqrt v dt steps) := by
  refine ⟨⌈steps⌉.toNat + 1, fun f hf => ?_⟩
  rw [cycle_eq_iterate]
  exact cycleIntFrom_eq_some sqrt dt steps hs _ 0 v f (le_refl _) (by simp) hf

/-- A call returns at most one result. -/
theorem cycleReturns_unique (sqrt : α → α) (v : List (Body α)) (dt : α) (steps : ℚ)
    {r1 r2 : List (Body α)} (h1 : CycleReturns sqrt v dt steps r1)
    (h2 : CycleReturns sqrt v dt steps r2) : r1 = r2 := by
  obtain ⟨f1, hf1⟩ := h1
  obtain ⟨f2, hf2⟩ := h2
  have e1 := hf1 (max f1 f2) (le_max_left _ _)
  have e2 := hf2 (max f1 f2) (le_max_right _ _)
  rw [e1] at e2
  exact Option.some.inj e2

/-- For a step count above `INT_MAX` the call does not return. -/
theorem not_cycleReturns (sqrt : α → α) (v : List (Body α)) (dt : α) (steps : ℚ)
    (hs : 2147483647 < steps) : ¬ ∃ r, CycleReturns sqrt v dt steps r := by
  rintro ⟨r, f, hf⟩
  have h := hf f (le_refl _)
  rw [cycleInt, cycleIntFrom_eq_none sqrt dt steps hs f 0 v (by norm_num)] at h
  cases h

theorem iterate_cycleStep_nil (sqrt : α → α) (dt : α) (n : ℕ) :
    (cycleStep sqrt dt)^[n] ([] : List (Body α)) = [] := by
  induction n with
  | zero => rfl
  | succ n ih => rw [Function.iterate_succ_apply]; exact ih

end IntCounterLemmas

section IntCounterClaims

variable {α : Type} [Add α] [Sub α] [Mul α] [Div α] [Neg α] [Zero α] [One α]
  [NatCast α] [OfScientific α] [Pow α ℕ]

/-- C18, as amended (the step count is a real number compared with an integer counter):
for every `steps ≤ INT_MAX = 2147483647` the call `cycle(v, dt, steps)` returns after
exactly `max(0, ⌈steps⌉)` repetitions of the three-phase step, and with no other result; so
every `steps ≤ 0`, negative values included, leaves the system unchanged, and `steps = 0.5`
performs one full repetition, as `steps = 1` does.  No law of arithmetic is used. -/
theorem C18_cycle_step_count (sqrt : α → α) (v : List (Body α)) (dt : α) (steps : ℚ)
    (hs : steps ≤ 2147483647) :
    CycleReturns sqrt v dt steps ((cycleStep sqrt dt)^[(max 0 ⌈steps⌉).toNat] v) ∧
    (∀ r, CycleReturns sqrt v dt steps r →
      r = (cycleStep sqrt dt)^[(max 0 ⌈steps⌉).toNat] v) ∧
    (steps ≤ 0 → CycleReturns sqrt v dt steps v) ∧
    CycleReturns sqrt v dt 0.5 (cycleStep sqrt dt v) ∧
    CycleReturns sqrt v dt 1 (cycleStep sqrt dt v) := by
  have hmax : (max 0 ⌈steps⌉).toNat = ⌈steps⌉.toNat := by omega
  have hret : CycleReturns sqrt v dt steps ((cycleStep sqrt dt)^[(max 0 ⌈steps⌉).toNat] v) := by
    rw [hmax, ← cycle_eq_iterate]
    exact cycleReturns_cycle sqrt v dt steps hs
  have hhalf : ⌈(0.5 : ℚ)⌉ = 1 := by
    rw [Int.ceil_eq_iff]
    norm_num
  refine ⟨hret, fun r hr => cycleReturns_unique sqrt v dt steps hr hret, fun h0 => ?_, ?_, ?_⟩
  · have h1 : ⌈steps⌉ ≤ 0 := Int.ceil_le.mpr (by exact_mod_cast h0)
    have h2 : (max 0 ⌈steps⌉).toNat = 0 := by omega
    rw [h2] at hret
    exact hret
  · have h := cycleReturns_cycle sqrt v dt 0.5 (by norm_num)
    rw [cycle_eq_iterate, hhalf] at h
    exact h
  · have h := cycleReturns_cycle sqrt v dt 1 (by norm_num)
    rw [cycle_one] at h
    exact h

/-- Witness for the amended C18: a call with `steps = -3` on the Sun and the Earth. -/
theorem C18_cycle_step_count_witness :
    ((-3 : ℚ) ≤ 2147483647 ∧ (-3 : ℚ) ≤ 0) ∧
    CycleReturns Rat.sqrt [sunQ, earthQ] 0.001 (-3) [sunQ, earthQ] :=
  ⟨⟨by norm_num, by norm_num⟩,
    (C18_cycle_step_count Rat.sqrt [sunQ, earthQ] 0.001 (-3) (by norm_num)).2.2.1
      (by norm_num)⟩

/-- Counterexample to C18 as stated: with `steps = 2147483648 = INT_MAX + 1` the counter
wraps before it reaches the step count, the loop condition stays true, and the call on the
empty system never returns, whatever the bound on the evaluations of the loop condition;
the claim has it return after `2147483648` repetitions. -/
theorem C18_cycle_step_count_overflow :
    ¬ ∃ (fuel : ℕ) (r : List (Body ℚ)),
      cycleInt Rat.sqrt ([] : List (Body ℚ)) 0.001 2147483648 fuel = some r := by
  rintro ⟨fuel, r, h⟩
  rw [cycleInt, cycleIntFrom_eq_none Rat.sqrt 0.001 2147483648 (by norm_num) fuel 0 []
    (by norm_num)] at h
  cases h

/-- C8, as amended (repeated calls compose): for natural numbers `m` and `n` with
`m + n ≤ INT_MAX = 2147483647`, a call with `m` steps returns, a call with `n` steps on its
result returns, and the call with `m + n` steps returns the same system; a call with one
step returns the result of the loop body, and a call with `m + n` steps returns what
`m + n` successive calls with one step give, and nothing else: the result depends only on
the system, `dt` and the step count.  No law of arithmetic is used. -/
theorem C8_cycle_compose (sqrt : α → α) (v : List (Body α)) (dt : α) (m n : ℕ)
    (h : m + n ≤ 2147483647) :
    (∃ r1 r2, CycleReturns sqrt v dt m r1 ∧ CycleReturns sqrt r1 dt n r2 ∧
      CycleReturns sqrt v dt ((m : ℚ) + (n : ℚ)) r2) ∧
    (∀ s, CycleReturns sqrt s dt 1 (cycleStep sqrt dt s)) ∧
    CycleReturns sqrt v dt ((m : ℚ) + (n : ℚ)) ((cycleStep sqrt dt)^[m + n] v) ∧
    (∀ r, CycleReturns sqrt v dt ((m : ℚ) + (n : ℚ)) r →
      r = (cycleStep sqrt dt)^[m + n] v) := by
  have hm : (m : ℚ) ≤ 2147483647 := by
    have : m ≤ 2147483647 := by omega
    exact_mod_cast this
  have hn : (n : ℚ) ≤ 2147483647 := by
    have : n ≤ 2147483647 := by omega
    exact_mod_cast this
  have hmn : (m : ℚ) + (n : ℚ) ≤ 2147483647 := by exact_mod_cast h
  have hsum : cycle sqrt v dt ((m : ℚ) + (n : ℚ)) = (cycleStep sqrt dt)^[m + n] v := by
    rw [← Nat.cast_add, cycle_natCast]
  refine ⟨⟨cycle sqrt v dt m, cycle sqrt (cycle sqrt v dt m) dt n,
    cycleReturns_cycle sqrt v dt m hm, cycleReturns_cycle sqrt _ dt n hn, ?_⟩, fun s => ?_, ?_⟩
  · have h1 := cycleReturns_cycle sqrt v dt ((m : ℚ) + (n : ℚ)) hmn
    rw [hsum, Nat.add_comm, Function.iterate_add_apply, ← cycle_natCast, ← cycle_natCast] at h1
    exact h1
  · have h1 := cycleReturns_cycle sqrt s dt 1 (by norm_num)
    rw [cycle_one] at h1
    exact h1
  · have h1 := cycleReturns_cycle sqrt v dt _ hmn
    rw [hsum] at h1
    exact ⟨h1, fun r hr => cycleReturns_unique sqrt v dt _ hr h1⟩

/-- Witness for the amended C8: one step and then two steps on the Sun and the Earth. -/
theorem C8_cycle_compose_witness :
    1 + 2 ≤ 2147483647 ∧
    CycleReturns Rat.sqrt [sunQ, earthQ] 0.001 (((1 : ℕ) : ℚ) + ((2 : ℕ) : ℚ))
      ((cycleStep Rat.sqrt 0.001)^[1 + 2] [sunQ, earthQ]) :=
  ⟨by norm_num, (C8_cycle_compose Rat.sqrt [sunQ, earthQ] 0.001 1 2 (by norm_num)).2.2.1⟩

/-- Counterexample to C8 as stated: on the empty system a call with `m = 2^30` steps
returns, a call with `n = 2^30` steps on its result returns, but the call with
`m + n = 2^31` steps never returns: the `int` counter wraps at `INT_MAX = 2^31 - 1`. -/
theorem C8_cycle_compose_overflow :
    CycleReturns Rat.sqrt ([] : List (Body ℚ)) 0.001 ((1073741824 : ℕ) : ℚ) [] ∧
    CycleReturns Rat.sqrt ([] : List (Body ℚ)) 0.001 ((1073741824 : ℕ) : ℚ) [] ∧
    ¬ ∃ r, CycleReturns Rat.sqrt ([] : List (Body ℚ)) 0.001
      (((1073741824 : ℕ) : ℚ) + ((1073741824 : ℕ) : ℚ)) r := by
  have h1 : CycleReturns Rat.sqrt ([] : List (Body ℚ)) 0.001 ((1073741824 : ℕ) : ℚ) [] := by
    have h := cycleReturns_cycle Rat.sqrt ([] : List (Body ℚ)) 0.001
      ((1073741824 : ℕ) : ℚ) (by norm_num)
    rw [cycle_natCast, iterate_cycleStep_nil] at h
    exact h
  exact ⟨h1, h1, not_cycleReturns Rat.sqrt [] 0.001 _ (by norm_num)⟩

end IntCounterClaims

/-! ## The acceleration stored by `init` and by a step of `cycle` -/

section StoredAcceleration

variable {α : Type} [Add α] [Sub α] [Mul α] [Div α] [Neg α] [Zero α] [One α]
  [NatCast α] [OfScientific α] [Pow α ℕ]

theorem foldl_filter_eq {β γ : Type} (p : β → Bool) (f : γ → β → γ) (l : List β) (init : γ) :
    (l.filter p).foldl f init = l.foldl (fun s x => if p x then f s x else s) init := by
  induction l generalizing init with
  | nil => rfl
  | cons x l ih =>
    rw [List.filter_cons]
    split <;> simp [*]

/-- The inner loop adds up, in the order of the indices and starting from the zero vector,
the terms of the indices other than `i`; the term of an index `j` is read from the bodies
`i` and `j` of the vector. -/
theorem accelSum_eq_foldl (k : α) (sqrt : α → α) (v : List (Body α)) (i : Fin v.length) :
    accelSum k sqrt v i.val =
      ((List.finRange v.length).filter fun j => j ≠ i).foldl
        (fun sum j => Vector3Add sum (accelTerm k sqrt (v.get i) (v.get j))) ⟨0, 0, 0⟩ := by
  unfold accelSum
  rw [← List.map_coe_finRange v.length, List.foldl_map, foldl_filter_eq]
  congr 1
  funext sum j
  rw [List.getElem?_eq_getElem i.isLt, List.getElem?_eq_getElem j.isLt]
  by_cases h : j = i
  · subst h
    simp
  · have h2 : i.val ≠ j.val := fun e => h (Fin.ext e.symm)
    simp [h, h2]

/-- C3 (initializer acceleration): the acceleration `init` stores in body `i` is the sum,
taken in the order of the indices and starting from the zero vector as the loop does, over
every index `j` other than `i` of
`(position[i] - position[j]) * -1 * relativisticMass(j) * inverseCubeDistance(i, j)`, all
read from the system as it was before the call; for a one-body system the stored
acceleration is the zero vector.  No law of arithmetic is used, so this holds for every
interpretation of the arithmetic.  Bodies are told apart by index, not by position: in the
arithmetic with non-finite values, a body `j` other than `i` at the position of body `i`
contributes its non-finite term, and the stored acceleration is non-finite on every axis. -/
theorem C3_init_acceleration (sqrt : α → α) (v : List (Body α)) (dt : α) :
    (∀ i : Fin v.length, ∃ b, (init sqrt v dt)[i.val]? = some b ∧
      b.a = ((List.finRange v.length).filter fun j => j ≠ i).foldl
        (fun sum j => Vector3Add sum
          (Vector3Scale (Vector3Scale (Vector3Scale
            (Vector3Subtract (v.get i).c (v.get j).c) (-1)) ((v.get j).mm sqrt))
            ((v.get i).r3 sqrt (v.get j))))
        ⟨0, 0, 0⟩) ∧
    (∀ b : Body α, (init sqrt [b] dt).map Body.a = [⟨0, 0, 0⟩]) ∧
    (∀ (K : Type) [Field K] [DecidableEq K] (sq : Fl K → Fl K) (w : List (Body (Fl K)))
      (dtK : Fl K) (i j : Fin w.length),
      sq (Fl.fin 0) = Fl.fin 0 → sq Fl.nonfin = Fl.nonfin → i ≠ j →
      (w.get i).c = (w.get j).c →
      ∃ b, (init sq w dtK)[i.val]? = some b ∧ b.a = ⟨Fl.nonfin, Fl.nonfin, Fl.nonfin⟩) := by
  refine ⟨fun i => ?_, fun b => rfl, ?_⟩
  · have h := getElem?_init sqrt v dt i.val
    rw [List.getElem?_eq_getElem i.isLt, accelSum_eq_foldl (-1) sqrt v i] at h
    exact ⟨_, h, rfl⟩
  · intro K _ _ sq w dtK i j h0 hn hij hc
    have h := getElem?_init sq w dtK i.val
    rw [List.getElem?_eq_getElem i.isLt, accelSum_nonfin (-1) sq h0 hn w i j hij hc] at h
    exact ⟨_, h, rfl⟩

/-- Witness for C3: the two bodies `twinA` and `twinB`, at the same position. -/
theorem C3_init_acceleration_witness :
    (sqrtQ (Fl.fin 0) = Fl.fin 0 ∧ sqrtQ Fl.nonfin = Fl.nonfin ∧
      (⟨0, by decide⟩ : Fin [twinA, twinB].length) ≠ ⟨1, by decide⟩ ∧
      ([twinA, twinB].get ⟨0, by decide⟩).c = ([twinA, twinB].get ⟨1, by decide⟩).c) ∧
    ∃ b, (init sqrtQ [twinA, twinB] (Fl.fin 0.001))[0]? = some b ∧
      b.a = ⟨Fl.nonfin, Fl.nonfin, Fl.nonfin⟩ :=
  ⟨⟨sqrtQ_zero, rfl, by decide, rfl⟩,
    (C3_init_acceleration Rat.sqrt [sunQ, earthQ] 0.001).2.2 ℚ sqrtQ [twinA, twinB]
      (Fl.fin 0.001) ⟨0, by decide⟩ ⟨1, by decide⟩ sqrtQ_zero rfl (by decide) rfl⟩

/-- C5 (step acceleration recompute): after `cycle(system, dt, 1)` the acceleration of body
`i` is the sum, taken in the order of the indices and starting from the zero vector as the
loop does, over every index `j` other than `i` of
`(p'[i] - p'[j]) * (-2.975e-3) * relativisticMass(j) * inverseCubeDistance(p'[i], p'[j])`,
where the bodies read are those left by the position phase of this step: their positions
`p'` are the updated ones, their velocities and masses those from before the call.  No law
of arithmetic is used.  In the arithmetic with non-finite values, a body `j` other than `i`
at the updated position of body `i` contributes its non-finite term, and the stored
acceleration is non-finite on every axis. -/
theorem C5_cycle_acceleration (sqrt : α → α) (v : List (Body α)) (dt : α) :
    (positionPhase sqrt dt v).map Body.v = v.map Body.v ∧
    (positionPhase sqrt dt v).map Body.mass = v.map Body.mass ∧
    (∀ i : Fin (positionPhase sqrt dt v).length,
      ∃ b, (cycle sqrt v dt 1)[i.val]? = some b ∧
        b.a = ((List.finRange (positionPhase sqrt dt v).length).filter fun j => j ≠ i).foldl
          (fun sum j => Vector3Add sum
            (Vector3Scale (Vector3Scale (Vector3Scale
              (Vector3Subtract ((positionPhase sqrt dt v).get i).c
                ((positionPhase sqrt dt v).get j).c) (-2.975e-3))
              (((positionPhase sqrt dt v).get j).mm sqrt))
              (((positionPhase sqrt dt v).get i).r3 sqrt ((positionPhase sqrt dt v).get j))))
          ⟨0, 0, 0⟩) ∧
    (∀ (K : Type) [Field K] [DecidableEq K] (sq : Fl K → Fl K) (w : List (Body (Fl K)))
      (dtK : Fl K) (i j : Fin (positionPhase sq dtK w).length),
      sq (Fl.fin 0) = Fl.fin 0 → sq Fl.nonfin = Fl.nonfin → i ≠ j →
      ((positionPhase sq dtK w).get i).c = ((positionPhase sq dtK w).get j).c →
      ∃ b, (cycle sq w dtK 1)[i.val]? = some b ∧ b.a = ⟨Fl.nonfin, Fl.nonfin, Fl.nonfin⟩) := by
  refine ⟨?_, ?_, fun i => ?_, ?_⟩
  · unfold positionPhase
    rw [List.map_map]
    congr 1
  · unfold positionPhase
    rw [List.map_map]
    congr 1
  · have h := getElem?_cycleStep sqrt dt v i.val
    rw [List.getElem?_eq_getElem i.isLt,
      accelSum_eq_foldl (-2.975e-3) sqrt (positionPhase sqrt dt v) i, ← cycle_one] at h
    exact ⟨_, h, rfl⟩
  · intro K _ _ sq w dtK i j h0 hn hij hc
    have h := getElem?_cycleStep sq dtK w i.val
    rw [List.getElem?_eq_getElem i.isLt,
      accelSum_nonfin (-2.975e-3) sq h0 hn (positionPhase sq dtK w) i j hij hc,
      ← cycle_one] at h
    exact ⟨_, h, rfl⟩

/-- Witness for C5: the two bodies `twinA` and `twinB`, at the same position and with the
same velocity, so that they are at the same position after the position phase as well. -/
theorem C5_cycle_acceleration_witness :
    (sqrtQ (Fl.fin 0) = Fl.fin 0 ∧ sqrtQ Fl.nonfin = Fl.nonfin ∧
      (⟨0, by decide⟩ : Fin (positionPhase sqrtQ (Fl.fin 0.001) [twinA, twinB]).length)
        ≠ ⟨1, by decide⟩ ∧
      ((positionPhase sqrtQ (Fl.fin 0.001) [twinA, twinB]).get ⟨0, by decide⟩).c =
        ((positionPhase sqrtQ (Fl.fin 0.001) [twinA, twinB]).get ⟨1, by decide⟩).c) ∧
    ∃ b, (cycle sqrtQ [twinA, twinB] (Fl.fin 0.001) 1)[0]? = some b ∧
      b.a = ⟨Fl.nonfin, Fl.nonfin, Fl.nonfin⟩ :=
  ⟨⟨sqrtQ_zero, rfl, by decide, rfl⟩,
    (C5_cycle_acceleration Rat.sqrt [sunQ, earthQ] 0.001).2.2.2 ℚ sqrtQ [twinA, twinB]
      (Fl.fin 0.001) ⟨0, by decide⟩ ⟨1, by decide⟩ sqrtQ_zero rfl (by decide) rfl⟩

end StoredAcceleration

/-! ## The force law at coincident positions and at distinct positions -/

section ForceLawCorrected

theorem mm_twinA : twinA.mm sqrtQ = Fl.fin (5 / 4) := by
  have e1 : (1 : ℚ) - (15541.2 * 15541.2 + 0 * 0 + 0 * 0) / (25902 * 25902) = 16 / 25 := by
    norm_num
  simp only [Body.mm, twinA, Fl.sol_eq, Fl.one_eq, sqrtQ, Fl.fin_add_fin, Fl.fin_sub_fin,
    Fl.fin_mul_fin, Fl.fin_div_fin]
  norm_num [e1, rat_sqrt_sixteen_twentyfifths]

theorem mm_twinB : twinB.mm sqrtQ = Fl.fin (5 / 2) := by
  have e1 : (1 : ℚ) - (15541.2 * 15541.2 + 0 * 0 + 0 * 0) / (25902 * 25902) = 16 / 25 := by
    norm_num
  simp only [Body.mm, twinB, Fl.sol_eq, Fl.one_eq, sqrtQ, Fl.fin_add_fin, Fl.fin_sub_fin,
    Fl.fin_mul_fin, Fl.fin_div_fin]
  norm_num [e1, rat_sqrt_sixteen_twentyfifths]

theorem mm_swiftQ : swiftQ.mm sqrtQ = Fl.nonfin := by
  have e1 : (1 : ℚ) - (25902 * 25902 + 0 * 0 + 0 * 0) / (25902 * 25902) = 0 := by
    norm_num
  simp only [Body.mm, swiftQ, Fl.sol_eq, Fl.one_eq, sqrtQ, Fl.fin_add_fin, Fl.fin_sub_fin,
    Fl.fin_mul_fin, Fl.fin_div_fin]
  norm_num [e1]

theorem accelTerm_twins (k : Fl ℚ) :
    accelTerm k sqrtQ twinA twinB = ⟨Fl.nonfin, Fl.nonfin, Fl.nonfin⟩ ∧
    accelTerm k sqrtQ twinB twinA = ⟨Fl.nonfin, Fl.nonfin, Fl.nonfin⟩ :=
  ⟨accelTerm_nonfin k sqrtQ _ _ (Body.r3_nonfin_of_same_position sqrtQ sqrtQ_zero rfl _ _ rfl),
    accelTerm_nonfin k sqrtQ _ _ (Body.r3_nonfin_of_same_position sqrtQ sqrtQ_zero rfl _ _ rfl)⟩

/-- Counterexample to C7 as stated: `twinA` and `twinB` are at the same position and have
the finite non-zero relativistic masses `5/4` and `5/2`; the contribution of each to the
other is `0 · ∞`, so both sides of the claimed identity are NaN on every axis and compare
unequal. -/
theorem C7_force_law_symmetry_coincident :
    twinA.mm sqrtQ = Fl.fin (5 / 4) ∧ twinB.mm sqrtQ = Fl.fin (5 / 2) ∧
    (accelTerm (-1) sqrtQ twinA twinB).x / twinB.mm sqrtQ = Fl.nonfin ∧
    -((accelTerm (-1) sqrtQ twinB twinA).x / twinA.mm sqrtQ) = Fl.nonfin ∧
    Fl.numEq ((accelTerm (-1) sqrtQ twinA twinB).x / twinB.mm sqrtQ)
      (-((accelTerm (-1) sqrtQ twinB twinA).x / twinA.mm sqrtQ)) = false := by
  have h := accelTerm_twins (-1)
  refine ⟨mm_twinA, mm_twinB, ?_, ?_, ?_⟩
  · rw [h.1]
    simp
  · rw [h.2]
    simp
    rfl
  · rw [h.1, h.2]
    simp
    rfl

theorem mm_bodyAt_rest (m x y z : ℝ) : (bodyAt m x y z 0).mm Real.sqrt = m := by
  simp [Body.mm, bodyAt]

/-- The quotient of a contribution by the relativistic mass it contains changes sign when
the two bodies are exchanged (over a field, relativistic masses not zero). -/
theorem accelTerm_div_mm_antisymm {K : Type} [Field K] (G : K) (sqrt : K → K)
    (bi bj : Body K) (hi : bi.mm sqrt ≠ 0) (hj : bj.mm sqrt ≠ 0) :
    (accelTerm (-G) sqrt bi bj).x / bj.mm sqrt = -((accelTerm (-G) sqrt bj bi).x / bi.mm sqrt) ∧
    (accelTerm (-G) sqrt bi bj).y / bj.mm sqrt = -((accelTerm (-G) sqrt bj bi).y / bi.mm sqrt) ∧
    (accelTerm (-G) sqrt bi bj).z / bj.mm sqrt = -((accelTerm (-G) sqrt bj bi).z / bi.mm sqrt) := by
  have hr : bj.r3 sqrt bi = bi.r3 sqrt bj := Body.r3_comm sqrt bj bi
  simp only [accelTerm, Vector3Scale, Vector3Subtract, hr]
  refine ⟨?_, ?_, ?_⟩ <;> field_simp <;> ring

/-- C7, as amended (symmetry of the force law), over the real numbers: for two bodies at
distinct positions with non-zero relativistic masses and every coupling constant `G` (`1` in
`init`, `2.975e-3` in `cycle`), the distance is positive and the contribution
`(position[i] - position[j]) * -G * relativisticMass(j) * inverseCubeDistance(i, j)` divided
by `relativisticMass(j)` is the opposite of the contribution of `i` to `j` divided by
`relativisticMass(i)`, on every axis. -/
theorem C7_force_law_symmetry (G : ℝ) (bi bj : Body ℝ) (hc : bi.c ≠ bj.c)
    (hi : bi.mm Real.sqrt ≠ 0) (hj : bj.mm Real.sqrt ≠ 0) :
    0 < bi.r Real.sqrt bj ∧
    (accelTerm (-G) Real.sqrt bi bj).x / bj.mm Real.sqrt =
      -((accelTerm (-G) Real.sqrt bj bi).x / bi.mm Real.sqrt) ∧
    (accelTerm (-G) Real.sqrt bi bj).y / bj.mm Real.sqrt =
      -((accelTerm (-G) Real.sqrt bj bi).y / bi.mm Real.sqrt) ∧
    (accelTerm (-G) Real.sqrt bi bj).z / bj.mm Real.sqrt =
      -((accelTerm (-G) Real.sqrt bj bi).z / bi.mm Real.sqrt) :=
  ⟨Body.r_pos_of_ne bi bj hc, accelTerm_div_mm_antisymm G Real.sqrt bi bj hi hj⟩

/-- Witness for the amended C7: a body of mass `1` at `(3, 4, 0)` and a body of mass `2` at
the origin, both at rest, with `G = 2.975e-3`. -/
theorem C7_force_law_symmetry_witness :
    ((bodyAt (1 : ℝ) 3 4 0 0).c ≠ (bodyAt (2 : ℝ) 0 0 0 0).c ∧
      (bodyAt (1 : ℝ) 3 4 0 0).mm Real.sqrt ≠ 0 ∧
      (bodyAt (2 : ℝ) 0 0 0 0).mm Real.sqrt ≠ 0) ∧
    (accelTerm (-2.975e-3) Real.sqrt (bodyAt (1 : ℝ) 3 4 0 0) (bodyAt (2 : ℝ) 0 0 0 0)).x
        / (bodyAt (2 : ℝ) 0 0 0 0).mm Real.sqrt =
      -((accelTerm (-2.975e-3) Real.sqrt (bodyAt (2 : ℝ) 0 0 0 0) (bodyAt (1 : ℝ) 3 4 0 0)).x
        / (bodyAt (1 : ℝ) 3 4 0 0).mm Real.sqrt) :=
  ⟨⟨by simp [bodyAt], by rw [mm_bodyAt_rest]; norm_num, by rw [mm_bodyAt_rest]; norm_num⟩,
    (C7_force_law_symmetry 2.975e-3 (bodyAt (1 : ℝ) 3 4 0 0) (bodyAt (2 : ℝ) 0 0 0 0)
      (by simp [bodyAt]) (by rw [mm_bodyAt_rest]; norm_num)
      (by rw [mm_bodyAt_rest]; norm_num)).2.1⟩

end ForceLawCorrected

/-! ## The mass-weighted accelerations at degenerate and at regular systems -/

section CancellationCorrected

theorem init_pair {α : Type} [Add α] [Sub α] [Mul α] [Div α] [Neg α] [Zero α] [One α]
    [NatCast α] [OfScientific α] [Pow α ℕ] (sqrt : α → α) (x y : Body α) (dt : α) :
    ∃ b0 b1, init sqrt [x, y] dt = [b0, b1] ∧
      b0.a = accelSum (-1) sqrt [x, y] 0 ∧ b1.a = accelSum (-1) sqrt [x, y] 1 := by
  refine ⟨{ x with
      a := accelSum (-1) sqrt [x, y] 0
      v := Vector3Add x.v (Vector3Scale (Vector3Scale (accelSum (-1) sqrt [x, y] 0) 0.5) dt) },
    { y with
      a := accelSum (-1) sqrt [x, y] 1
      v := Vector3Add y.v (Vector3Scale (Vector3Scale (accelSum (-1) sqrt [x, y] 1) 0.5) dt) },
    ?_, rfl, rfl⟩
  apply List.ext_getElem?
  intro j
  rw [getElem?_init]
  match j with
  | 0 => rfl
  | 1 => rfl
  | j + 2 => rfl

/-- The mass-weighted sums of the accelerations stored by `init` and by one step of `cycle`
vanish over a field. -/
theorem weighted_sum_zero_field {K : Type} [Field K] (sqrt : K → K) (v : List (Body K))
    (dt : K) :
    ((List.zipWith (fun b b2 => b.mm sqrt * b2.a.x) v (init sqrt v dt)).sum = 0 ∧
      (List.zipWith (fun b b2 => b.mm sqrt * b2.a.y) v (init sqrt v dt)).sum = 0 ∧
      (List.zipWith (fun b b2 => b.mm sqrt * b2.a.z) v (init sqrt v dt)).sum = 0) ∧
    ((List.zipWith (fun b b2 => b.mm sqrt * b2.a.x) v (cycle sqrt v dt 1)).sum = 0 ∧
      (List.zipWith (fun b b2 => b.mm sqrt * b2.a.y) v (cycle sqrt v dt 1)).sum = 0 ∧
      (List.zipWith (fun b b2 => b.mm sqrt * b2.a.z) v (cycle sqrt v dt 1)).sum = 0) := by
  have hi := weighted_accelSum_zero (-1) sqrt v
  have hc := weighted_accelSum_zero (-2.975e-3) sqrt (positionPhase sqrt dt v)
  rw [cycle_one]
  refine ⟨⟨?_, ?_, ?_⟩, ⟨?_, ?_, ?_⟩⟩
  · rw [zipWith_init_eq sqrt v dt (fun a => a.x), sum_mapIdx_eq]
    exact hi.1
  · rw [zipWith_init_eq sqrt v dt (fun a => a.y), sum_mapIdx_eq]
    exact hi.2.1
  · rw [zipWith_init_eq sqrt v dt (fun a => a.z), sum_mapIdx_eq]
    exact hi.2.2
  · rw [zipWith_cycleStep_eq sqrt v dt (fun a => a.x), sum_mapIdx_eq]
    exact hc.1
  · rw [zipWith_cycleStep_eq sqrt v dt (fun a => a.y), sum_mapIdx_eq]
    exact hc.2.1
  · rw [zipWith_cycleStep_eq sqrt v dt (fun a => a.z), sum_mapIdx_eq]
    exact hc.2.2

end CancellationCorrected

end Gravity2
